import Mathlib

/-!
Verification of the text-retrieval core of the IRWA search demo
(myapp/search/algorithms.py): inverted-index construction and the three
ranking strategies (TF-IDF, TF-IDF+cosine, BM25), plus the search facade.

Conventions of the shallow embedding:
* A Python dict is modelled as an association list in insertion order;
  dict lookup finds the first matching key.
* A Python float is modelled as a real number; `math.log` is `Real.log`
  and `math.sqrt` is `Real.sqrt`.
* Code that can raise a Python exception (a `TypeError` from concatenating
  `None` with a list, a `KeyError` from a missing dict key) is modelled as
  returning `Option`, with `none` standing for the raised exception.
* A document attribute read with `getattr(doc, f, [])` is modelled by
  `TokAttr`: the attribute can be absent (`missing`, getattr yields the
  default `[]`), present but `None` (`null`, getattr yields `None`), or an
  actual token list.
-/

namespace IRWA

/-- State of a token-sequence attribute on a document object: absent from the
object, present with value `None`, or present with an actual list of tokens.
The `Document` shape itself is modelled from the spec (section 3 and
section 6): the class lives in myapp/search/objects.py, which is not among
the repository files; the fields are the ones the retrieval core reads. -/
inductive TokAttr where
  | missing : TokAttr
  | null : TokAttr
  | toks : List String → TokAttr
deriving DecidableEq

/-- `getattr(doc, field, [])`: the default `[]` for a missing attribute,
`None` (modelled `none`) when the attribute holds `None`, the list itself
otherwise. -/
def TokAttr.getattrD : TokAttr → Option (List String)
  | .missing => some []
  | .null => none
  | .toks l => some l

/-- Modelled from the spec: the document record of section 3 / section 6
(myapp/search/objects.py is not among the repository files). Display fields
plus the two precomputed token sequences. -/
structure Document where
  pid : String
  title : String
  description : String
  selling_price : ℚ
  discount : ℚ
  average_rating : ℚ
  url : String
  title_tokens : TokAttr
  desc_tokens : TokAttr
deriving DecidableEq

/-- Python `x or []` applied to the result of `getattr`: `None` and `[]`
both give `[]`. -/
def orElseEmpty : Option (List String) → List String
  | none => []
  | some l => l

/-- The token stream `create_inverted_index` builds for a document:
`(getattr(doc, "title_tokens", []) or []) + (getattr(doc, "desc_tokens", []) or [])`. -/
def Document.allTokens (d : Document) : List String :=
  orElseEmpty d.title_tokens.getattrD ++ orElseEmpty d.desc_tokens.getattrD

/-- The token list the doc-length loops of `rank_query_tf_idf_cosine` and
`rank_query_bm25` build: `getattr(doc, "title_tokens", []) + getattr(doc,
"desc_tokens", [])` with no `or []`, so a `None` field raises a `TypeError`,
modelled as `none`. -/
def Document.lenTokens (d : Document) : Option (List String) :=
  match d.title_tokens.getattrD, d.desc_tokens.getattrD with
  | some a, some b => some (a ++ b)
  | _, _ => none

/-- The corpus: `dict(pid -> Document)` in insertion order. -/
abbrev Corpus := List (String × Document)

/-- A posting `[doc_id, array(positions)]`. -/
abbrev Posting := ℕ × List ℕ

/-- The inverted index: `defaultdict(list)` from term to posting list,
in term insertion order. -/
abbrev Index := List (String × List Posting)

/-- `corpus[pid]` (dict lookup; `none` models the `KeyError`). -/
def corpusGet : Corpus → String → Option Document
  | [], _ => none
  | e :: rest, pid => if e.1 = pid then some e.2 else corpusGet rest pid

/-- `inverted_index.get(t, [])`. -/
def indexLookup : Index → String → List Posting
  | [], _ => []
  | e :: rest, t => if e.1 = t then e.2 else indexLookup rest t

/-- `doc_id_map[doc_id]` (dict lookup; `none` models the `KeyError`). -/
def dmapLookup : List (ℕ × String) → ℕ → Option String
  | [], _ => none
  | e :: rest, d => if e.1 = d then some e.2 else dmapLookup rest d

/-- One step of the `local_index` loop of `create_inverted_index`: if `term`
is already a key, append `pos` to its positions; otherwise insert
`[doc_id, array("I", [pos])]` at the end (dict insertion order). -/
def localInsert : List (String × ℕ × List ℕ) → String → ℕ → ℕ → List (String × ℕ × List ℕ)
  | [], term, docId, pos => [(term, docId, [pos])]
  | e :: rest, term, docId, pos =>
    if e.1 = term then (e.1, e.2.1, e.2.2 ++ [pos]) :: rest
    else e :: localInsert rest term docId pos

/-- The `for pos, term in enumerate(all_tokens)` loop building `local_index`. -/
def buildLocal (docId : ℕ) : List String → ℕ → List (String × ℕ × List ℕ) → List (String × ℕ × List ℕ)
  | [], _, acc => acc
  | t :: ts, pos, acc => buildLocal docId ts (pos + 1) (localInsert acc t docId pos)

/-- `inverted_index[term].append(posting)` on the `defaultdict(list)`. -/
def indexAppend : Index → String → Posting → Index
  | [], term, p => [(term, [p])]
  | e :: rest, term, p =>
    if e.1 = term then (e.1, e.2 ++ [p]) :: rest
    else e :: indexAppend rest term p

/-- The `for term, posting in local_index.items()` loop merging one document
into the inverted index. -/
def indexDoc (inv : Index) (docId : ℕ) (doc : Document) : Index :=
  (buildLocal docId doc.allTokens 0 []).foldl (fun i e => indexAppend i e.1 e.2) inv

/-- The main `for doc_id, pid in enumerate(corpus.keys())` loop of
`create_inverted_index`, carrying the three structures being built. -/
def buildAux : Index × List (ℕ × String) × List (String × ℕ) → ℕ → Corpus →
    Index × List (ℕ × String) × List (String × ℕ)
  | st, _, [] => st
  | (inv, dm, rm), docId, (pid, doc) :: rest =>
    buildAux (indexDoc inv docId doc, dm ++ [(docId, pid)], rm ++ [(pid, docId)]) (docId + 1) rest

/-- `create_inverted_index(corpus)`: the inverted index, `doc_id_map`
(doc_id to pid, as an association list in insertion order) and
`reverse_map` (pid to doc_id). -/
def create_inverted_index (corpus : Corpus) :
    Index × List (ℕ × String) × List (String × ℕ) :=
  buildAux ([], [], []) 0 corpus

/-! Statement-side descriptions of what the index builder is supposed to
produce, written directly from the token streams so the correctness claims
compare the built index against them. -/

/-- The token stream of the document at position `i` of the corpus
(`[]` out of range). -/
def streamAt (corpus : Corpus) (i : ℕ) : List String :=
  ((corpus[i]?).map (fun e => e.2.allTokens)).getD []

/-- The 0-based offsets, counted from `pos`, of every occurrence of `t`
in a token list. -/
def occFrom (t : String) : List String → ℕ → List ℕ
  | [], _ => []
  | s :: ss, pos => if s = t then pos :: occFrom t ss (pos + 1) else occFrom t ss (pos + 1)

/-- The posting list a correct index holds for term `t`: one posting per
document containing `t`, in enumeration order, doc ids counted from `k`. -/
def postingsFrom (t : String) : Corpus → ℕ → List Posting
  | [], _ => []
  | (_, d) :: rest, k =>
    (if t ∈ d.allTokens then [(k, occFrom t d.allTokens 0)] else []) ++ postingsFrom t rest (k + 1)

/-- The expected `doc_id_map`: pids enumerated with doc ids counted from `k`. -/
def dmapSpec : Corpus → ℕ → List (ℕ × String)
  | [], _ => []
  | (pid, _) :: rest, k => (k, pid) :: dmapSpec rest (k + 1)

/-! ### Lemmas on the index builder -/

/-- First lookup in `local_index`. -/
def lookupLocal : List (String × ℕ × List ℕ) → String → Option (ℕ × List ℕ)
  | [], _ => none
  | e :: rest, t => if e.1 = t then some e.2 else lookupLocal rest t

lemma indexLookup_indexAppend (idx : Index) (term : String) (p : Posting) (t : String) :
    indexLookup (indexAppend idx term p) t =
      indexLookup idx t ++ if term = t then [p] else [] := by
  induction idx with
  | nil => simp [indexAppend, indexLookup]
  | cons e rest ih =>
    by_cases he : e.1 = term
    · by_cases ht : e.1 = t
      · have htt : term = t := he ▸ ht
        simp [indexAppend, indexLookup, he, ht, htt]
      · have htt : ¬term = t := fun hh => ht (he.trans hh)
        simp [indexAppend, indexLookup, he, ht, htt]
    · by_cases ht : e.1 = t
      · have htt : ¬term = t := fun hh => he (ht.trans hh.symm)
        simp [indexAppend, indexLookup, he, ht, htt, Ne.symm htt]
      · simp [indexAppend, indexLookup, he, ht, ih]

lemma indexLookup_foldl_indexAppend (L : List (String × ℕ × List ℕ)) (idx : Index) (t : String) :
    indexLookup (L.foldl (fun i e => indexAppend i e.1 e.2) idx) t =
      indexLookup idx t ++ (L.filter (fun e => e.1 = t)).map (fun e => e.2) := by
  induction L generalizing idx with
  | nil => simp
  | cons e rest ih =>
    simp only [List.foldl_cons, ih, indexLookup_indexAppend]
    by_cases h : e.1 = t
    · simp [h, List.filter_cons, List.append_assoc]
    · simp [h, List.filter_cons]

lemma lookupLocal_localInsert (acc : List (String × ℕ × List ℕ)) (term : String)
    (docId pos : ℕ) (t : String) :
    lookupLocal (localInsert acc term docId pos) t =
      if term = t then
        (match lookupLocal acc t with
          | none => some (docId, [pos])
          | some q => some (q.1, q.2 ++ [pos]))
      else lookupLocal acc t := by
  induction acc with
  | nil => simp [localInsert, lookupLocal]
  | cons e rest ih =>
    by_cases he : e.1 = term
    · by_cases ht : e.1 = t
      · have htt : term = t := he ▸ ht
        simp [localInsert, lookupLocal, he, ht, htt]
      · have htt : ¬term = t := fun hh => ht (he.trans hh)
        simp [localInsert, lookupLocal, he, ht, htt]
    · by_cases ht : e.1 = t
      · have htt : ¬term = t := fun hh => he (ht.trans hh.symm)
        simp [localInsert, lookupLocal, he, ht, htt, Ne.symm htt]
      · simp [localInsert, lookupLocal, he, ht, ih]

lemma lookupLocal_buildLocal (docId : ℕ) (t : String) :
    ∀ (ts : List String) (pos : ℕ) (acc : List (String × ℕ × List ℕ)),
    lookupLocal (buildLocal docId ts pos acc) t =
      match lookupLocal acc t with
      | none => if t ∈ ts then some (docId, occFrom t ts pos) else none
      | some q => some (q.1, q.2 ++ occFrom t ts pos)
  | [], pos, acc => by
    cases h : lookupLocal acc t <;> simp [buildLocal, occFrom, h]
  | s :: ss, pos, acc => by
    rw [buildLocal, lookupLocal_buildLocal docId t ss (pos + 1) _, lookupLocal_localInsert]
    by_cases hs : s = t
    · subst hs
      cases h : lookupLocal acc s with
      | none => simp [occFrom, h]
      | some q => simp [occFrom, h, List.append_assoc]
    · have hs2 : ¬t = s := fun h2 => hs h2.symm
      cases h : lookupLocal acc t with
      | none =>
        by_cases hm : t ∈ ss <;> simp [occFrom, h, hs, hs2, hm, List.mem_cons]
      | some q => simp [occFrom, h, hs, hs2]

lemma map_fst_localInsert (acc : List (String × ℕ × List ℕ)) (term : String) (docId pos : ℕ) :
    (localInsert acc term docId pos).map (fun e => e.1) =
      if term ∈ acc.map (fun e => e.1) then acc.map (fun e => e.1)
      else acc.map (fun e => e.1) ++ [term] := by
  induction acc with
  | nil => simp [localInsert]
  | cons e rest ih =>
    by_cases he : e.1 = term
    · simp [localInsert, he]
    · by_cases hm : term ∈ rest.map (fun e => e.1) <;>
        simp [localInsert, he, ih, hm, Ne.symm he]

lemma nodup_map_fst_localInsert (acc : List (String × ℕ × List ℕ)) (term : String)
    (docId pos : ℕ) (h : (acc.map (fun e => e.1)).Nodup) :
    ((localInsert acc term docId pos).map (fun e => e.1)).Nodup := by
  rw [map_fst_localInsert]
  by_cases hm : term ∈ acc.map (fun e => e.1)
  · simpa [hm] using h
  · simp only [hm, if_false]
    exact (List.nodup_append).2 ⟨h, List.nodup_singleton _, by simpa using hm⟩

lemma nodup_map_fst_buildLocal (docId : ℕ) :
    ∀ (ts : List String) (pos : ℕ) (acc : List (String × ℕ × List ℕ)),
    (acc.map (fun e => e.1)).Nodup → ((buildLocal docId ts pos acc).map (fun e => e.1)).Nodup
  | [], _, _, h => h
  | t :: ts, pos, acc, h =>
    nodup_map_fst_buildLocal docId ts (pos + 1) _ (nodup_map_fst_localInsert acc t docId pos h)

lemma filter_eq_of_not_mem_fst (l : List (String × ℕ × List ℕ)) (t : String)
    (h : t ∉ l.map (fun e => e.1)) : l.filter (fun e => e.1 = t) = [] := by
  induction l with
  | nil => rfl
  | cons e rest ih =>
    simp only [List.map_cons, List.mem_cons, not_or] at h
    simp [List.filter_cons, Ne.symm h.1, ih h.2]

lemma filter_fst_of_nodup (l : List (String × ℕ × List ℕ)) (t : String)
    (h : (l.map (fun e => e.1)).Nodup) :
    l.filter (fun e => e.1 = t) =
      match lookupLocal l t with
      | none => []
      | some q => [(t, q)] := by
  induction l with
  | nil => rfl
  | cons e rest ih =>
    simp only [List.map_cons, List.nodup_cons] at h
    by_cases he : e.1 = t
    · subst he
      simp [List.filter_cons, lookupLocal, filter_eq_of_not_mem_fst rest e.1 h.1]
    · simp [List.filter_cons, lookupLocal, he, ih h.2]

lemma indexLookup_indexDoc (inv : Index) (k : ℕ) (d : Document) (t : String) :
    indexLookup (indexDoc inv k d) t =
      indexLookup inv t ++
        (if t ∈ d.allTokens then [(k, occFrom t d.allTokens 0)] else []) := by
  rw [indexDoc, indexLookup_foldl_indexAppend,
    filter_fst_of_nodup _ t (nodup_map_fst_buildLocal k d.allTokens 0 [] (by simp)),
    lookupLocal_buildLocal]
  by_cases hm : t ∈ d.allTokens <;> simp [lookupLocal, hm]

lemma indexLookup_buildAux (t : String) :
    ∀ (corpus : Corpus) (k : ℕ) (inv : Index) (dm : List (ℕ × String)) (rm : List (String × ℕ)),
    indexLookup (buildAux (inv, dm, rm) k corpus).1 t =
      indexLookup inv t ++ postingsFrom t corpus k
  | [], _, _, _, _ => by simp [buildAux, postingsFrom]
  | (pid, d) :: rest, k, inv, dm, rm => by
    rw [buildAux, indexLookup_buildAux t rest (k + 1), indexLookup_indexDoc, postingsFrom,
      List.append_assoc]

/-- The built inverted index looks up, for every term, exactly the posting
list described by `postingsFrom`. -/
theorem indexLookup_create (corpus : Corpus) (t : String) :
    indexLookup (create_inverted_index corpus).1 t = postingsFrom t corpus 0 := by
  rw [create_inverted_index, indexLookup_buildAux t corpus 0 [] [] []]
  rfl

lemma dmap_buildAux :
    ∀ (corpus : Corpus) (k : ℕ) (inv : Index) (dm : List (ℕ × String)) (rm : List (String × ℕ)),
    (buildAux (inv, dm, rm) k corpus).2.1 = dm ++ dmapSpec corpus k
  | [], _, _, _, _ => by simp [buildAux, dmapSpec]
  | (pid, d) :: rest, k, inv, dm, rm => by
    rw [buildAux, dmap_buildAux rest (k + 1), dmapSpec]
    simp

/-- The built `doc_id_map` is the enumeration of the corpus pids. -/
theorem dmap_create (corpus : Corpus) :
    (create_inverted_index corpus).2.1 = dmapSpec corpus 0 := by
  rw [create_inverted_index, dmap_buildAux corpus 0 [] [] []]
  rfl

lemma dmapSpec_length : ∀ (corpus : Corpus) (k : ℕ), (dmapSpec corpus k).length = corpus.length
  | [], _ => rfl
  | e :: rest, k => by simp [dmapSpec, dmapSpec_length rest (k + 1)]

lemma occFrom_bound (t : String) :
    ∀ (l : List String) (pos x : ℕ), x ∈ occFrom t l pos → pos ≤ x
  | s :: ss, pos, x, hx => by
    rw [occFrom] at hx
    by_cases hs : s = t
    · rcases (by simpa [hs] using hx : x = pos ∨ x ∈ occFrom t ss (pos + 1)) with h | h
      · omega
      · have := occFrom_bound t ss (pos + 1) x h; omega
    · have := occFrom_bound t ss (pos + 1) x (by simpa [hs] using hx); omega

lemma occFrom_pairwise (t : String) :
    ∀ (l : List String) (pos : ℕ), List.Pairwise (· < ·) (occFrom t l pos)
  | [], _ => by simp [occFrom]
  | s :: ss, pos => by
    rw [occFrom]
    by_cases hs : s = t
    · rw [if_pos hs]
      exact List.pairwise_cons.2
        ⟨fun x hx => lt_of_lt_of_le (Nat.lt_succ_self pos) (occFrom_bound t ss (pos + 1) x hx),
          occFrom_pairwise t ss (pos + 1)⟩
    · rw [if_neg hs]
      exact occFrom_pairwise t ss (pos + 1)

lemma occFrom_mem (t : String) :
    ∀ (l : List String) (k p : ℕ), p ∈ occFrom t l k ↔ k ≤ p ∧ l[p - k]? = some t
  | [], k, p => by simp [occFrom]
  | s :: ss, k, p => by
    have tail := occFrom_mem t ss (k + 1) p
    rw [occFrom]
    by_cases hp : p = k
    · by_cases hs : s = t
      · rw [if_pos hs, List.mem_cons, hp]
        simp [hs]
      · rw [if_neg hs, tail]
        constructor
        · rintro ⟨h1, _⟩; omega
        · rintro ⟨_, h2⟩
          rw [hp, Nat.sub_self, List.getElem?_cons_zero] at h2
          exact absurd (Option.some.inj h2) hs
    · have key : p ∈ occFrom t ss (k + 1) ↔ k ≤ p ∧ (s :: ss)[p - k]? = some t := by
        rw [tail]
        by_cases hk : k + 1 ≤ p
        · have hpk : p - k = (p - (k + 1)) + 1 := by omega
          rw [hpk, List.getElem?_cons_succ]
          constructor
          · rintro ⟨_, h2⟩; exact ⟨by omega, h2⟩
          · rintro ⟨_, h2⟩; exact ⟨hk, h2⟩
        · constructor
          · rintro ⟨h1, _⟩; omega
          · rintro ⟨h1, _⟩; omega
      by_cases hs : s = t
      · rw [if_pos hs, List.mem_cons]
        constructor
        · rintro (h | h)
          · exact absurd h hp
          · exact key.1 h
        · intro h; exact Or.inr (key.2 h)
      · rw [if_neg hs]; exact key

lemma occFrom_length_count (t : String) :
    ∀ (l : List String) (pos : ℕ), (occFrom t l pos).length = l.count t
  | [], _ => rfl
  | s :: ss, pos => by
    by_cases hs : s = t <;>
      simp [occFrom, hs, List.count_cons, occFrom_length_count t ss (pos + 1)]

lemma postingsFrom_bound (t : String) :
    ∀ (corpus : Corpus) (k : ℕ) (p : Posting), p ∈ postingsFrom t corpus k →
      k ≤ p.1 ∧ p.1 < k + corpus.length
  | [], _, p, hp => absurd hp (by simp [postingsFrom])
  | (pid, d) :: rest, k, p, hp => by
    rw [postingsFrom] at hp
    rcases List.mem_append.1 hp with h | h
    · by_cases hm : t ∈ d.allTokens
      · rw [if_pos hm, List.mem_singleton] at h
        subst h; simp
      · rw [if_neg hm] at h; exact absurd h (List.not_mem_nil p)
    · have := postingsFrom_bound t rest (k + 1) p h
      constructor <;> [omega; (simp only [List.length_cons]; omega)]

lemma postingsFrom_pairwise (t : String) :
    ∀ (corpus : Corpus) (k : ℕ),
      List.Pairwise (· < ·) ((postingsFrom t corpus k).map (fun p => p.1))
  | [], _ => by simp [postingsFrom]
  | (pid, d) :: rest, k => by
    rw [postingsFrom, List.map_append]
    refine List.pairwise_append.2 ⟨?_, postingsFrom_pairwise t rest (k + 1), ?_⟩
    · by_cases hm : t ∈ d.allTokens <;> simp [hm]
    · intro a ha b hb
      rcases List.mem_map.1 hb with ⟨p, hp, rfl⟩
      have hbd := (postingsFrom_bound t rest (k + 1) p hp).1
      by_cases hm : t ∈ d.allTokens
      · rw [if_pos hm] at ha
        simp only [List.map_cons, List.map_nil, List.mem_singleton] at ha
        omega
      · rw [if_neg hm] at ha
        exact absurd ha (by simp)

lemma streamAt_cons_zero (e : String × Document) (rest : Corpus) :
    streamAt (e :: rest) 0 = e.2.allTokens := by
  simp [streamAt]

lemma streamAt_cons_succ (e : String × Document) (rest : Corpus) (d : ℕ) :
    streamAt (e :: rest) (d + 1) = streamAt rest d := by
  simp [streamAt]

lemma streamAt_nil (d : ℕ) : streamAt [] d = [] := by
  simp [streamAt]

lemma postingsFrom_filter (t : String) :
    ∀ (corpus : Corpus) (k d : ℕ),
      (postingsFrom t corpus k).filter (fun p => p.1 = k + d) =
        if t ∈ streamAt corpus d then [(k + d, occFrom t (streamAt corpus d) 0)] else []
  | [], k, d => by simp [postingsFrom, streamAt_nil]
  | e :: rest, k, 0 => by
    rw [postingsFrom, List.filter_append, streamAt_cons_zero]
    have hrest : (postingsFrom t rest (k + 1)).filter (fun p => p.1 = k) = [] := by
      refine List.filter_eq_nil_iff.2 fun p hp => ?_
      have := (postingsFrom_bound t rest (k + 1) p hp).1
      simp only [decide_eq_true_eq]
      omega
    by_cases hm : t ∈ e.2.allTokens <;> simp [hm, hrest]
  | e :: rest, k, d + 1 => by
    rw [postingsFrom, List.filter_append, streamAt_cons_succ]
    have hk : k + (d + 1) = (k + 1) + d := by omega
    have hhead : ((if t ∈ e.2.allTokens then [(k, occFrom t e.2.allTokens 0)] else []).filter
        (fun p => p.1 = k + (d + 1)) : List Posting) = [] := by
      by_cases hm : t ∈ e.2.allTokens
      · rw [if_pos hm]
        simp only [List.filter_cons, List.filter_nil, decide_eq_true_eq]
        rw [if_neg (by omega)]
      · rw [if_neg hm]; rfl
    rw [hhead, List.nil_append, hk, postingsFrom_filter t rest (k + 1) d]

/-- The filter of the built posting list of `t` at a given doc id: the one
posting of that document if its stream contains `t`, nothing otherwise. -/
lemma lookup_filter_create (corpus : Corpus) (t : String) (d : ℕ) :
    (indexLookup (create_inverted_index corpus).1 t).filter (fun p => p.1 = d) =
      if t ∈ streamAt corpus d then [(d, occFrom t (streamAt corpus d) 0)] else [] := by
  have := postingsFrom_filter t corpus 0 d
  rw [Nat.zero_add] at this
  rw [indexLookup_create, this]

lemma dmapSpec_getElem? :
    ∀ (corpus : Corpus) (k j : ℕ),
    (dmapSpec corpus k)[j]? = (corpus[j]?).map (fun e => (k + j, e.1))
  | [], _, j => by simp [dmapSpec]
  | e :: rest, k, 0 => by simp [dmapSpec]
  | e :: rest, k, j + 1 => by
    rw [dmapSpec, List.getElem?_cons_succ, List.getElem?_cons_succ,
      dmapSpec_getElem? rest (k + 1) j]
    have harith : k + 1 + j = k + (j + 1) := by omega
    rw [harith]

lemma dmapSpec_map_fst :
    ∀ (corpus : Corpus) (k : ℕ),
      (dmapSpec corpus k).map (fun e => e.1) = List.range' k corpus.length
  | [], _ => by simp [dmapSpec]
  | e :: rest, k => by
    rw [dmapSpec, List.length_cons, List.range'_succ]
    simp [dmapSpec_map_fst rest (k + 1)]

/-! ### The claims about the index builder -/

/-- Claim C1: for every corpus, document position `i` and term `t` occurring in
that document's concatenated token stream (title tokens then description
tokens), the built index has exactly one posting for that document under `t`;
its positions list is strictly increasing, lists exactly the 0-based offsets
of every occurrence of `t` in the stream, and its length is the occurrence
count; and in every posting list each doc id appears at most once. -/
theorem create_inverted_index_correct (corpus : Corpus) (i : ℕ) (t : String)
    (ht : t ∈ streamAt corpus i) :
    (indexLookup (create_inverted_index corpus).1 t).filter (fun p => p.1 = i) =
        [(i, occFrom t (streamAt corpus i) 0)]
    ∧ List.Pairwise (· < ·) (occFrom t (streamAt corpus i) 0)
    ∧ (∀ p : ℕ, p ∈ occFrom t (streamAt corpus i) 0 ↔ (streamAt corpus i)[p]? = some t)
    ∧ (occFrom t (streamAt corpus i) 0).length = (streamAt corpus i).count t
    ∧ ∀ t2 : String,
        ((indexLookup (create_inverted_index corpus).1 t2).map (fun p => p.1)).Nodup := by
  refine ⟨?_, occFrom_pairwise t _ 0, ?_, occFrom_length_count t _ 0, ?_⟩
  · rw [lookup_filter_create, if_pos ht]
  · intro p
    rw [occFrom_mem t _ 0 p, Nat.sub_zero]
    simp
  · intro t2
    rw [indexLookup_create]
    exact (postingsFrom_pairwise t2 corpus 0).imp Nat.ne_of_lt

/-- A concrete document used to instantiate theorems with hypotheses. -/
def sampleDoc : Document :=
  ⟨"p1", "red shoes", "very red shoes", 10, 0, 4, "http://x", .toks ["red", "shoes"],
    .toks ["very", "red", "shoes"]⟩

/-- A concrete one-document corpus used to instantiate theorems with hypotheses. -/
def sampleCorpus : Corpus := [("p1", sampleDoc)]

/-- Claim C1, instantiated: the sample corpus at document 0 and term "red". -/
theorem create_inverted_index_correct_witness :
    ("red" ∈ streamAt sampleCorpus 0)
    ∧ ((indexLookup (create_inverted_index sampleCorpus).1 "red").filter (fun p => p.1 = 0) =
          [(0, occFrom "red" (streamAt sampleCorpus 0) 0)]
      ∧ List.Pairwise (· < ·) (occFrom "red" (streamAt sampleCorpus 0) 0)
      ∧ (∀ p : ℕ, p ∈ occFrom "red" (streamAt sampleCorpus 0) 0 ↔
          (streamAt sampleCorpus 0)[p]? = some "red")
      ∧ (occFrom "red" (streamAt sampleCorpus 0) 0).length = (streamAt sampleCorpus 0).count "red"
      ∧ ∀ t2 : String,
          ((indexLookup (create_inverted_index sampleCorpus).1 t2).map (fun p => p.1)).Nodup) :=
  ⟨by decide, create_inverted_index_correct sampleCorpus 0 "red" (by decide)⟩

lemma dmap_keys_range (corpus : Corpus) :
    ((create_inverted_index corpus).2.1).map (fun e => e.1) = List.range corpus.length := by
  rw [dmap_create, dmapSpec_map_fst, List.range_eq_range']

/-- Claim C10: in the built index, every posting list is sorted in strictly
ascending doc id order, all doc ids are below the corpus size, and the
doc id map enumerates the corpus in insertion order with consecutive ids
0..N-1. -/
theorem posting_lists_ascending (corpus : Corpus) (t : String) :
    List.Pairwise (· < ·) ((indexLookup (create_inverted_index corpus).1 t).map (fun p => p.1))
    ∧ (∀ p ∈ indexLookup (create_inverted_index corpus).1 t, p.1 < corpus.length)
    ∧ ((create_inverted_index corpus).2.1).map (fun e => e.1) = List.range corpus.length := by
  refine ⟨?_, ?_, ?_⟩
  · rw [indexLookup_create]
    exact postingsFrom_pairwise t corpus 0
  · intro p hp
    rw [indexLookup_create] at hp
    have := (postingsFrom_bound t corpus 0 p hp).2
    omega
  · exact dmap_keys_range corpus

/-! ### Query tokenization: `query.lower().split()` -/

/-- Whitespace split dropping empty pieces; `cur` is the current word,
reversed. -/
def splitWs : List Char → List Char → List String
  | [], cur => if cur = [] then [] else [String.mk cur.reverse]
  | c :: cs, cur =>
    if c.isWhitespace then
      (if cur = [] then [] else [String.mk cur.reverse]) ++ splitWs cs []
    else splitWs cs (c :: cur)

/-- `query.lower().split()`: lower-case every character, then split on
whitespace, dropping empty pieces. -/
def tokenizeQuery (q : String) : List String :=
  splitWs (q.data.map Char.toLower) []

/-! ### The scores dictionary `defaultdict(float)` keyed by doc id -/

/-- `scores[doc_id] += x` on the `defaultdict(float)`: add to the entry if
the key is present, append `(doc_id, 0.0 + x)` otherwise. -/
def addScore : List (ℕ × ℝ) → ℕ → ℝ → List (ℕ × ℝ)
  | [], d, x => [(d, x)]
  | e :: rest, d, x => if e.1 = d then (e.1, e.2 + x) :: rest else e :: addScore rest d x

/-- Lookup in the scores dictionary. -/
def scoresGet : List (ℕ × ℝ) → ℕ → Option ℝ
  | [], _ => none
  | e :: rest, d => if e.1 = d then some e.2 else scoresGet rest d

/-- Document frequency: `len(inverted_index.get(t, []))`. -/
def df (inv : Index) (t : String) : ℕ := (indexLookup inv t).length

/-- `math.log(N / df[t]) if df[t] > 0 else 0`. -/
noncomputable def idf (N : ℕ) (inv : Index) (t : String) : ℝ :=
  if 0 < df inv t then Real.log ((N : ℝ) / (df inv t : ℝ)) else 0

/-- The score-accumulation loops of `rank_query_tf_idf`: for every query term
(in order), for every posting, `scores[doc_id] += tf * idf[t]`. -/
noncomputable def tfidfScores (inv : Index) (N : ℕ) (qts : List String) : List (ℕ × ℝ) :=
  qts.foldl (fun sc t =>
    (indexLookup inv t).foldl
      (fun sc2 p => addScore sc2 p.1 ((p.2.length : ℝ) * idf N inv t)) sc) []

/-- Stable insertion into a list sorted by descending score: the new element
goes after every element whose score is at least its own. -/
noncomputable def insertDesc (x : ℕ × ℝ) : List (ℕ × ℝ) → List (ℕ × ℝ)
  | [] => [x]
  | y :: ys => if x.2 ≤ y.2 then y :: insertDesc x ys else x :: y :: ys

/-- `sorted(scores.items(), key=lambda x: x[1], reverse=True)`: a stable sort
by descending score (insertion sort is stable, so it agrees with the stable
sort Python uses). -/
noncomputable def sortByScoreDesc (l : List (ℕ × ℝ)) : List (ℕ × ℝ) :=
  l.foldl (fun acc x => insertDesc x acc) []

/-- `rank_query_tf_idf(query, inverted_index, corpus, doc_id_map)`
(the corpus argument is taken but never read, as in the source). -/
noncomputable def rank_query_tf_idf (query : String) (inv : Index) (_corpus : Corpus)
    (dmap : List (ℕ × String)) : List (ℕ × ℝ) :=
  sortByScoreDesc (tfidfScores inv dmap.length (tokenizeQuery query))

/-! ### Lemmas on the scores dictionary -/

lemma scoresGet_addScore :
    ∀ (sc : List (ℕ × ℝ)) (d : ℕ) (x : ℝ) (e : ℕ),
    scoresGet (addScore sc d x) e =
      if e = d then some ((scoresGet sc e).getD 0 + x) else scoresGet sc e
  | [], d, x, e => by
    by_cases h : e = d
    · subst h; simp [scoresGet, addScore]
    · simp [scoresGet, addScore, h, Ne.symm h]
  | f :: rest, d, x, e => by
    by_cases hf : f.1 = d
    · by_cases he : f.1 = e
      · have hed : e = d := he.symm.trans hf
        simp [scoresGet, addScore, hf, he, hed]
      · have hed : ¬e = d := fun hh => he (hf.trans hh.symm)
        simp [scoresGet, addScore, hf, he, hed, Ne.symm hed]
    · by_cases he : f.1 = e
      · have hed : ¬e = d := fun hh => hf (he.trans hh)
        simp [scoresGet, addScore, hf, he, hed]
      · simp [scoresGet, addScore, hf, he, scoresGet_addScore rest d x e]

lemma map_fst_addScore :
    ∀ (sc : List (ℕ × ℝ)) (d : ℕ) (x : ℝ),
    (addScore sc d x).map (fun e => e.1) =
      if d ∈ sc.map (fun e => e.1) then sc.map (fun e => e.1)
      else sc.map (fun e => e.1) ++ [d]
  | [], d, x => by simp [addScore]
  | f :: rest, d, x => by
    by_cases hf : f.1 = d
    · simp [addScore, hf]
    · by_cases hm : d ∈ rest.map (fun e => e.1) <;>
        simp [addScore, hf, map_fst_addScore rest d x, hm, Ne.symm hf]

lemma nodup_map_fst_addScore (sc : List (ℕ × ℝ)) (d : ℕ) (x : ℝ)
    (h : (sc.map (fun e => e.1)).Nodup) : ((addScore sc d x).map (fun e => e.1)).Nodup := by
  rw [map_fst_addScore]
  by_cases hm : d ∈ sc.map (fun e => e.1)
  · simpa [hm] using h
  · simp only [hm, if_false]
    exact (List.nodup_append).2 ⟨h, List.nodup_singleton _, by simpa using hm⟩

lemma scoresGet_isSome_iff :
    ∀ (sc : List (ℕ × ℝ)) (d : ℕ),
    (scoresGet sc d).isSome = true ↔ d ∈ sc.map (fun e => e.1)
  | [], d => by simp [scoresGet]
  | f :: rest, d => by
    by_cases hf : f.1 = d
    · simp [scoresGet, hf]
    · simp [scoresGet, hf, scoresGet_isSome_iff rest d, Ne.symm hf]

lemma mem_iff_scoresGet :
    ∀ (sc : List (ℕ × ℝ)), ((sc.map (fun e => e.1)).Nodup) →
      ∀ (d : ℕ) (s : ℝ), (d, s) ∈ sc ↔ scoresGet sc d = some s
  | [], _, d, s => by simp [scoresGet]
  | f :: rest, h, d, s => by
    simp only [List.map_cons, List.nodup_cons] at h
    by_cases hf : f.1 = d
    · rw [scoresGet]
      rw [if_pos hf, List.mem_cons]
      constructor
      · rintro (hh | hh)
        · rw [← hh]
        · exact absurd (List.mem_map_of_mem (fun e => e.1) hh) (hf ▸ h.1)
      · intro hh
        left
        have : f = (f.1, f.2) := rfl
        rw [this, hf, Option.some.inj hh]
    · rw [scoresGet, if_neg hf, List.mem_cons]
      rw [mem_iff_scoresGet rest h.2 d s]
      constructor
      · rintro (hh | hh)
        · exact absurd (congrArg Prod.fst hh).symm hf
        · exact hh
      · exact Or.inr

lemma getD_scoresGet_foldl (f : Posting → ℝ) :
    ∀ (ps : List Posting) (sc : List (ℕ × ℝ)) (d : ℕ),
    (scoresGet (ps.foldl (fun sc2 p => addScore sc2 p.1 (f p)) sc) d).getD 0 =
      (scoresGet sc d).getD 0 + ((ps.filter (fun p => p.1 = d)).map f).sum
  | [], sc, d => by simp
  | p :: ps, sc, d => by
    rw [List.foldl_cons, getD_scoresGet_foldl f ps _ d, scoresGet_addScore, List.filter_cons]
    by_cases hp : p.1 = d
    · simp [hp, add_assoc]
    · simp [hp, Ne.symm hp]

lemma isSome_scoresGet_foldl (f : Posting → ℝ) :
    ∀ (ps : List Posting) (sc : List (ℕ × ℝ)) (d : ℕ),
    ((scoresGet (ps.foldl (fun sc2 p => addScore sc2 p.1 (f p)) sc) d).isSome = true ↔
      (∃ p ∈ ps, p.1 = d) ∨ (scoresGet sc d).isSome = true)
  | [], sc, d => by simp
  | p :: ps, sc, d => by
    rw [List.foldl_cons, isSome_scoresGet_foldl f ps _ d, scoresGet_addScore]
    by_cases hp : p.1 = d
    · simp [hp]
    · simp [hp, Ne.symm hp, or_assoc]

lemma nodup_map_fst_foldl_addScore (f : Posting → ℝ) :
    ∀ (ps : List Posting) (sc : List (ℕ × ℝ)),
    ((sc.map (fun e => e.1)).Nodup) →
      (((ps.foldl (fun sc2 p => addScore sc2 p.1 (f p)) sc).map (fun e => e.1)).Nodup)
  | [], _, h => h
  | p :: ps, sc, h =>
    nodup_map_fst_foldl_addScore f ps _ (nodup_map_fst_addScore sc p.1 (f p) h)

lemma getD_tfidfAccum (inv : Index) (N : ℕ) :
    ∀ (qts : List String) (sc : List (ℕ × ℝ)) (d : ℕ),
    (scoresGet (qts.foldl (fun sc t => (indexLookup inv t).foldl
        (fun sc2 p => addScore sc2 p.1 ((p.2.length : ℝ) * idf N inv t)) sc) sc) d).getD 0 =
      (scoresGet sc d).getD 0 +
        (qts.map (fun t => (((indexLookup inv t).filter (fun p => p.1 = d)).map
          (fun p => (p.2.length : ℝ) * idf N inv t)).sum)).sum
  | [], sc, d => by simp
  | t :: qts, sc, d => by
    rw [List.foldl_cons, getD_tfidfAccum inv N qts _ d, getD_scoresGet_foldl, List.map_cons,
      List.sum_cons, add_assoc]

lemma isSome_tfidfAccum (inv : Index) (N : ℕ) :
    ∀ (qts : List String) (sc : List (ℕ × ℝ)) (d : ℕ),
    ((scoresGet (qts.foldl (fun sc t => (indexLookup inv t).foldl
        (fun sc2 p => addScore sc2 p.1 ((p.2.length : ℝ) * idf N inv t)) sc) sc) d).isSome = true ↔
      (∃ t ∈ qts, ∃ p ∈ indexLookup inv t, p.1 = d) ∨ (scoresGet sc d).isSome = true)
  | [], sc, d => by simp
  | t :: qts, sc, d => by
    rw [List.foldl_cons, isSome_tfidfAccum inv N qts _ d, isSome_scoresGet_foldl]
    constructor
    · rintro (h | h | h)
      · rcases h with ⟨t2, ht2, hp⟩
        exact Or.inl ⟨t2, List.mem_cons_of_mem t ht2, hp⟩
      · exact Or.inl ⟨t, List.mem_cons_self t qts, h⟩
      · exact Or.inr h
    · rintro (⟨t2, ht2, hp⟩ | h)
      · rcases List.mem_cons.1 ht2 with rfl | ht2
        · exact Or.inr (Or.inl hp)
        · exact Or.inl ⟨t2, ht2, hp⟩
      · exact Or.inr (Or.inr h)

lemma tfidfScores_getD (inv : Index) (N : ℕ) (qts : List String) (d : ℕ) :
    (scoresGet (tfidfScores inv N qts) d).getD 0 =
      (qts.map (fun t => (((indexLookup inv t).filter (fun p => p.1 = d)).map
        (fun p => (p.2.length : ℝ) * idf N inv t)).sum)).sum := by
  rw [tfidfScores, getD_tfidfAccum]
  simp [scoresGet]

lemma tfidfScores_isSome (inv : Index) (N : ℕ) (qts : List String) (d : ℕ) :
    ((scoresGet (tfidfScores inv N qts) d).isSome = true ↔
      ∃ t ∈ qts, ∃ p ∈ indexLookup inv t, p.1 = d) := by
  rw [tfidfScores, isSome_tfidfAccum]
  simp [scoresGet]

lemma tfidfScores_nodup (inv : Index) (N : ℕ) (qts : List String) :
    (((tfidfScores inv N qts).map (fun e => e.1)).Nodup) := by
  rw [tfidfScores]
  generalize hsc : ([] : List (ℕ × ℝ)) = sc
  have hn : ((sc.map (fun e => e.1)).Nodup) := by rw [← hsc]; simp
  clear hsc
  induction qts generalizing sc with
  | nil => exact hn
  | cons t qts ih =>
    rw [List.foldl_cons]
    exact ih _ (nodup_map_fst_foldl_addScore _ _ _ hn)

/-! ### Lemmas on the stable descending sort -/

lemma insertDesc_perm (x : ℕ × ℝ) :
    ∀ (l : List (ℕ × ℝ)), (insertDesc x l).Perm (x :: l)
  | [] => List.Perm.refl _
  | y :: ys => by
    rw [insertDesc]
    by_cases h : x.2 ≤ y.2
    · rw [if_pos h]
      exact (((insertDesc_perm x ys).cons y).trans (List.Perm.swap x y ys))
    · rw [if_neg h]

lemma foldl_insertDesc_perm :
    ∀ (l acc : List (ℕ × ℝ)), (l.foldl (fun a x => insertDesc x a) acc).Perm (acc ++ l)
  | [], acc => by simp
  | x :: xs, acc => by
    rw [List.foldl_cons]
    refine (foldl_insertDesc_perm xs (insertDesc x acc)).trans ?_
    refine (List.Perm.append_right xs (insertDesc_perm x acc)).trans ?_
    exact List.perm_middle.symm

lemma sortByScoreDesc_perm (l : List (ℕ × ℝ)) : (sortByScoreDesc l).Perm l := by
  rw [sortByScoreDesc]
  simpa using foldl_insertDesc_perm l []

lemma insertDesc_pairwise (x : ℕ × ℝ) :
    ∀ (l : List (ℕ × ℝ)), List.Pairwise (fun a b => b.2 ≤ a.2) l →
      List.Pairwise (fun a b => b.2 ≤ a.2) (insertDesc x l)
  | [], _ => List.pairwise_singleton _ _
  | y :: ys, h => by
    rw [insertDesc]
    rcases List.pairwise_cons.1 h with ⟨hy, hys⟩
    by_cases hx : x.2 ≤ y.2
    · rw [if_pos hx]
      refine List.pairwise_cons.2 ⟨?_, insertDesc_pairwise x ys hys⟩
      intro b hb
      rcases List.mem_cons.1 ((insertDesc_perm x ys).mem_iff.1 hb) with hb2 | hb2
      · rw [hb2]; exact hx
      · exact hy b hb2
    · rw [if_neg hx]
      refine List.pairwise_cons.2 ⟨?_, h⟩
      intro b hb
      rcases List.mem_cons.1 hb with hb | hb
      · rw [hb]; exact le_of_not_le hx
      · exact le_trans (hy b hb) (le_of_not_le hx)

lemma sortByScoreDesc_sorted (l : List (ℕ × ℝ)) :
    List.Pairwise (fun a b => b.2 ≤ a.2) (sortByScoreDesc l) := by
  rw [sortByScoreDesc]
  generalize hacc : ([] : List (ℕ × ℝ)) = acc
  have hp : List.Pairwise (fun a b => b.2 ≤ a.2) acc := by rw [← hacc]; simp
  clear hacc
  induction l generalizing acc with
  | nil => exact hp
  | cons x xs ih =>
    rw [List.foldl_cons]
    exact ih _ (insertDesc_pairwise x acc hp)

/-! ### Corpus-side description of the TF-IDF scores -/

/-- Document frequency described on the corpus: the number of documents whose
token stream contains `t`. -/
def dfSpec (corpus : Corpus) (t : String) : ℕ :=
  corpus.countP (fun e => t ∈ e.2.allTokens)

/-- `idf(t) = ln(N / df(t))` for `df(t) > 0`, else `0`, described on the
corpus. -/
noncomputable def idfSpec (corpus : Corpus) (t : String) : ℝ :=
  if 0 < dfSpec corpus t then Real.log ((corpus.length : ℝ) / (dfSpec corpus t : ℝ)) else 0

/-- The TF-IDF score of document `d`: the sum over all query-term occurrences
(repeated terms counted repeatedly) of `tf(t, d) * idf(t)`. -/
noncomputable def tfidfScoreSpec (corpus : Corpus) (qts : List String) (d : ℕ) : ℝ :=
  (qts.map (fun t => (((streamAt corpus d).count t : ℝ) * idfSpec corpus t))).sum

lemma postingsFrom_length (t : String) :
    ∀ (corpus : Corpus) (k : ℕ),
      (postingsFrom t corpus k).length = corpus.countP (fun e => t ∈ e.2.allTokens)
  | [], _ => rfl
  | e :: rest, k => by
    rw [postingsFrom, List.length_append, postingsFrom_length t rest (k + 1), List.countP_cons]
    by_cases hm : t ∈ e.2.allTokens <;> simp [hm, Nat.add_comm]

lemma df_create (corpus : Corpus) (t : String) :
    df (create_inverted_index corpus).1 t = dfSpec corpus t := by
  rw [df, indexLookup_create, postingsFrom_length, dfSpec]

lemma idf_create (corpus : Corpus) (t : String) :
    idf (dmapSpec corpus 0).length (create_inverted_index corpus).1 t = idfSpec corpus t := by
  rw [idf, idfSpec, df_create, dmapSpec_length]

lemma exists_posting_iff (corpus : Corpus) (t : String) (d : ℕ) :
    (∃ p ∈ indexLookup (create_inverted_index corpus).1 t, p.1 = d) ↔
      t ∈ streamAt corpus d := by
  constructor
  · rintro ⟨p, hp, hpd⟩
    by_contra hm
    have hfil := lookup_filter_create corpus t d
    rw [if_neg hm] at hfil
    have hmem : p ∈ (indexLookup (create_inverted_index corpus).1 t).filter
        (fun p => p.1 = d) := List.mem_filter.2 ⟨hp, by simp [hpd]⟩
    rw [hfil] at hmem
    exact absurd hmem (List.not_mem_nil p)
  · intro hm
    have hfil := lookup_filter_create corpus t d
    rw [if_pos hm] at hfil
    have hmem : ((d, occFrom t (streamAt corpus d) 0) : Posting) ∈
        (indexLookup (create_inverted_index corpus).1 t).filter (fun p => p.1 = d) := by
      rw [hfil]
      exact List.mem_singleton.2 rfl
    exact ⟨_, (List.mem_filter.1 hmem).1, rfl⟩

lemma tfidf_contrib (corpus : Corpus) (t : String) (d : ℕ) :
    (((indexLookup (create_inverted_index corpus).1 t).filter (fun p => p.1 = d)).map
        (fun p => (p.2.length : ℝ) *
          idf (dmapSpec corpus 0).length (create_inverted_index corpus).1 t)).sum =
      ((streamAt corpus d).count t : ℝ) * idfSpec corpus t := by
  rw [lookup_filter_create]
  by_cases hm : t ∈ streamAt corpus d
  · rw [if_pos hm]
    simp [occFrom_length_count, idf_create]
  · rw [if_neg hm]
    simp [List.count_eq_zero.2 hm]

lemma option_eq_some_iff (o : Option ℝ) (s : ℝ) :
    o = some s ↔ (o.isSome = true ∧ o.getD 0 = s) := by
  cases o <;> simp

lemma rank_tfidf_nodup (query : String) (corpus : Corpus) :
    ((rank_query_tf_idf query (create_inverted_index corpus).1 corpus
        (create_inverted_index corpus).2.1).map (fun e => e.1)).Nodup := by
  rw [rank_query_tf_idf, dmap_create]
  exact ((sortByScoreDesc_perm _).map (fun e => e.1)).symm.nodup (tfidfScores_nodup _ _ _)

lemma rank_tfidf_mem_iff (query : String) (corpus : Corpus) (d : ℕ) (s : ℝ) :
    (d, s) ∈ rank_query_tf_idf query (create_inverted_index corpus).1 corpus
        (create_inverted_index corpus).2.1 ↔
      ((∃ t ∈ tokenizeQuery query, t ∈ streamAt corpus d)
        ∧ s = tfidfScoreSpec corpus (tokenizeQuery query) d) := by
  rw [rank_query_tf_idf, dmap_create]
  rw [(sortByScoreDesc_perm _).mem_iff, mem_iff_scoresGet _ (tfidfScores_nodup _ _ _) d s,
    option_eq_some_iff, tfidfScores_isSome, tfidfScores_getD]
  have hsum : ((tokenizeQuery query).map
      (fun t => (((indexLookup (create_inverted_index corpus).1 t).filter
        (fun p => p.1 = d)).map (fun p => (p.2.length : ℝ) *
          idf (dmapSpec corpus 0).length (create_inverted_index corpus).1 t)).sum)).sum =
      tfidfScoreSpec corpus (tokenizeQuery query) d := by
    rw [tfidfScoreSpec]
    simp only [tfidf_contrib]
  rw [hsum]
  constructor
  · rintro ⟨⟨t, ht, hp⟩, hs⟩
    exact ⟨⟨t, ht, (exists_posting_iff corpus t d).1 hp⟩, hs.symm⟩
  · rintro ⟨⟨t, ht, hm⟩, hs⟩
    exact ⟨⟨t, ht, (exists_posting_iff corpus t d).2 hm⟩, hs.symm⟩

/-- Claim C2: on the index and doc id map built from the corpus, TF-IDF
ranking returns exactly the documents containing at least one query term
(OR semantics), each at most once, and the score attached to a returned
document is the sum over all query-term occurrences (repeated terms counted
repeatedly) of `tf(t, d) * idf(t)`, with `idf(t) = ln(N / df(t))` when
`df(t) > 0` and `0` otherwise; documents matching no query term are absent. -/
theorem rank_query_tf_idf_correct (query : String) (corpus : Corpus) :
    ((rank_query_tf_idf query (create_inverted_index corpus).1 corpus
        (create_inverted_index corpus).2.1).map (fun e => e.1)).Nodup
    ∧ ∀ (d : ℕ) (s : ℝ),
        ((d, s) ∈ rank_query_tf_idf query (create_inverted_index corpus).1 corpus
            (create_inverted_index corpus).2.1 ↔
          ((∃ t ∈ tokenizeQuery query, t ∈ streamAt corpus d)
            ∧ s = tfidfScoreSpec corpus (tokenizeQuery query) d)) :=
  ⟨rank_tfidf_nodup query corpus, fun d s => rank_tfidf_mem_iff query corpus d s⟩

/-! ### Claim C9: TF-IDF monotonicity -/

/-- The score a ranked list assigns to a doc id (`0` when absent). -/
noncomputable def scoreOf (l : List (ℕ × ℝ)) (d : ℕ) : ℝ := (scoresGet l d).getD 0

lemma scoreOf_eq_of_mem (l : List (ℕ × ℝ)) (h : (l.map (fun e => e.1)).Nodup)
    (d : ℕ) (s : ℝ) (hm : (d, s) ∈ l) : scoreOf l d = s := by
  rw [scoreOf, (mem_iff_scoresGet l h d s).1 hm]
  rfl

lemma idfSpec_nonneg (corpus : Corpus) (t : String) : 0 ≤ idfSpec corpus t := by
  rw [idfSpec]
  by_cases h : 0 < dfSpec corpus t
  · rw [if_pos h]
    refine Real.log_nonneg ((one_le_div ?_).2 ?_)
    · exact_mod_cast h
    · exact_mod_cast List.countP_le_length _
  · rw [if_neg h]

lemma countP_set_of_iff {α : Type} (l : List α) (i : ℕ) (a : α) (p : α → Bool)
    (hi : i < l.length) (hp : p a = p (l.get ⟨i, hi⟩)) :
    (l.set i a).countP p = l.countP p := by
  have hp2 : p a = p l[i] := hp
  rw [List.set_eq_take_append_cons_drop, if_pos hi]
  conv_rhs => rw [← List.take_append_drop i l, List.drop_eq_getElem_cons hi]
  rw [List.countP_append, List.countP_append, List.countP_cons, List.countP_cons, hp2]

lemma streamAt_eq_of_getElem? (corpus : Corpus) (i : ℕ) (e : String × Document)
    (h : corpus[i]? = some e) : streamAt corpus i = e.2.allTokens := by
  rw [streamAt, h]
  rfl

/-- Claim C9: for a fixed query, if one document gains one additional
occurrence of a query term it already matches (all other documents and its
pid unchanged), its TF-IDF score does not decrease. The second corpus is the
first with document `i` replaced so that its token stream gains one occurrence
of `t` (the streams are `s1 ++ s2` before and `s1 ++ t :: s2` after). -/
theorem rank_tfidf_monotone (query : String) (corpus : Corpus) (i : ℕ) (pid : String)
    (d1 d2 : Document) (t : String) (s1 s2 : List String)
    (hi : corpus[i]? = some (pid, d1))
    (ht : t ∈ tokenizeQuery query)
    (hmatch : t ∈ d1.allTokens)
    (hsplit1 : d1.allTokens = s1 ++ s2)
    (hsplit2 : d2.allTokens = s1 ++ t :: s2) :
    scoreOf (rank_query_tf_idf query (create_inverted_index corpus).1 corpus
        (create_inverted_index corpus).2.1) i ≤
      scoreOf (rank_query_tf_idf query
          (create_inverted_index (corpus.set i (pid, d2))).1 (corpus.set i (pid, d2))
          (create_inverted_index (corpus.set i (pid, d2))).2.1) i := by
  obtain ⟨hlen, hget⟩ := List.getElem?_eq_some.1 hi
  have hts : t ∈ s1 ∨ t ∈ s2 := List.mem_append.1 (hsplit1 ▸ hmatch)
  have hstream1 : streamAt corpus i = d1.allTokens := streamAt_eq_of_getElem? corpus i _ hi
  have hget2 : (corpus.set i (pid, d2))[i]? = some (pid, d2) := List.getElem?_set_self hlen
  have hstream2 : streamAt (corpus.set i (pid, d2)) i = d2.allTokens :=
    streamAt_eq_of_getElem? _ i _ hget2
  have hmem1 : (i, tfidfScoreSpec corpus (tokenizeQuery query) i) ∈
      rank_query_tf_idf query (create_inverted_index corpus).1 corpus
        (create_inverted_index corpus).2.1 :=
    (rank_tfidf_mem_iff query corpus i _).2 ⟨⟨t, ht, by rw [hstream1]; exact hmatch⟩, rfl⟩
  have hmem2 : (i, tfidfScoreSpec (corpus.set i (pid, d2)) (tokenizeQuery query) i) ∈
      rank_query_tf_idf query (create_inverted_index (corpus.set i (pid, d2))).1
        (corpus.set i (pid, d2)) (create_inverted_index (corpus.set i (pid, d2))).2.1 :=
    (rank_tfidf_mem_iff query (corpus.set i (pid, d2)) i _).2
      ⟨⟨t, ht, by
        rw [hstream2, hsplit2]
        exact List.mem_append_right _ (List.mem_cons_self _ _)⟩, rfl⟩
  rw [scoreOf_eq_of_mem _ (rank_tfidf_nodup query corpus) _ _ hmem1,
    scoreOf_eq_of_mem _ (rank_tfidf_nodup query (corpus.set i (pid, d2))) _ _ hmem2]
  have hdf : ∀ u : String, dfSpec (corpus.set i (pid, d2)) u = dfSpec corpus u := by
    intro u
    rw [dfSpec, dfSpec]
    refine countP_set_of_iff corpus i (pid, d2) _ hlen ?_
    simp only [List.get_eq_getElem, hget]
    rw [decide_eq_decide]
    rw [hsplit1, hsplit2]
    simp only [List.mem_append, List.mem_cons]
    constructor
    · rintro (h | h | h)
      · exact Or.inl h
      · subst h; exact hts
      · exact Or.inr h
    · rintro (h | h)
      · exact Or.inl h
      · exact Or.inr (Or.inr h)
  have hidf : ∀ u, idfSpec (corpus.set i (pid, d2)) u = idfSpec corpus u := by
    intro u
    rw [idfSpec, idfSpec, hdf, List.length_set]
  have hcount : ∀ u, (streamAt (corpus.set i (pid, d2)) i).count u =
      (streamAt corpus i).count u + (if u = t then 1 else 0) := by
    intro u
    rw [hstream1, hstream2, hsplit1, hsplit2, List.count_append, List.count_append,
      List.count_cons]
    by_cases hu : u = t
    · simp [hu, Nat.add_assoc]
    · simp [beq_iff_eq, hu, Ne.symm hu]
  rw [tfidfScoreSpec, tfidfScoreSpec]
  refine List.sum_le_sum ?_
  intro u _
  rw [hidf u, hcount u]
  by_cases hut : u = t
  · rw [if_pos hut]
    refine mul_le_mul_of_nonneg_right ?_ (idfSpec_nonneg corpus u)
    push_cast
    linarith
  · rw [if_neg hut, Nat.add_zero]

/-! ### TF-IDF + cosine (AND semantics) -/

/-- The doc-length loop shared by the cosine and BM25 strategies: for every
`(doc_id, pid)` of `doc_id_map`, look up `corpus[pid]` (a `KeyError` is
`none`) and take `len(getattr(doc, "title_tokens", []) + getattr(doc,
"desc_tokens", []))` (a `TypeError` on a `None` field is `none`). -/
def doc_lengths (corpus : Corpus) : List (ℕ × String) → Option (List (ℕ × ℕ))
  | [] => some []
  | e :: rest =>
    match corpusGet corpus e.2 with
    | none => none
    | some doc =>
      match doc.lenTokens with
      | none => none
      | some toks =>
        match doc_lengths corpus rest with
        | none => none
        | some dl => some ((e.1, toks.length) :: dl)

/-- Lookup in the doc-lengths dictionary (`doc_lengths[doc_id]`). -/
def dlGet : List (ℕ × ℕ) → ℕ → Option ℕ
  | [], _ => none
  | e :: rest, d => if e.1 = d then some e.2 else dlGet rest d

/-- The AND-semantics loop: start from all doc ids, intersect with the doc
set of each query term's postings, and break to the empty set as soon as a
term has no postings. -/
def matchingDocs (inv : Index) : List String → List ℕ → List ℕ
  | [], ms => ms
  | t :: ts, ms =>
    if indexLookup inv t = [] then []
    else matchingDocs inv ts
      (ms.filter (fun d => (indexLookup inv t).any (fun p => p.1 = d)))

/-- Term frequency for a doc id: scan the posting list for the first posting
of that doc and take its positions length, `0` when absent (the cosine
document-vector loop). -/
def tfIn (inv : Index) (t : String) (d : ℕ) : ℕ :=
  match (indexLookup inv t).find? (fun p => p.1 = d) with
  | some p => p.2.length
  | none => 0

/-- `math.sqrt(sum(a * a for a in v))`. -/
noncomputable def sqNorm (v : List ℝ) : ℝ := Real.sqrt ((v.map (fun a => a * a)).sum)

/-- The `cosine(v1, v2)` helper of `rank_query_tf_idf_cosine`:
`dot / (n1 * n2) if n1 and n2 else 0`. -/
noncomputable def cosineSim (v1 v2 : List ℝ) : ℝ :=
  if sqNorm v1 ≠ 0 ∧ sqNorm v2 ≠ 0 then
    ((v1.zip v2).map (fun p => p.1 * p.2)).sum / (sqNorm v1 * sqNorm v2)
  else 0

/-- `rank_query_tf_idf_cosine(query, inverted_index, corpus, doc_id_map)`:
doc lengths are computed first (and can raise, giving `none`); a document
qualifies only if it contains every query term; qualifying documents are
scored by the cosine of the idf query vector and the tf*idf document
vector. The set of matching doc ids is modelled in ascending doc id order. -/
noncomputable def rank_query_tf_idf_cosine (query : String) (inv : Index) (corpus : Corpus)
    (dmap : List (ℕ × String)) : Option (List (ℕ × ℝ)) :=
  match doc_lengths corpus dmap with
  | none => none
  | some _ =>
    let N := dmap.length
    let qts := tokenizeQuery query
    let matching := matchingDocs inv qts (dmap.map (fun e => e.1))
    if matching = [] then some []
    else
      let qvec := qts.map (fun t => idf N inv t)
      some (sortByScoreDesc (matching.map (fun d =>
        (d, cosineSim qvec (qts.map (fun t => ((tfIn inv t d : ℝ) * idf N inv t)))))))

lemma mem_matchingDocs (inv : Index) :
    ∀ (ts : List String) (ms : List ℕ) (d : ℕ),
    (d ∈ matchingDocs inv ts ms ↔
      d ∈ ms ∧ ∀ t ∈ ts, ∃ p ∈ indexLookup inv t, p.1 = d)
  | [], ms, d => by simp [matchingDocs]
  | t :: ts, ms, d => by
    rw [matchingDocs]
    by_cases h : indexLookup inv t = []
    · rw [if_pos h]
      simp only [List.not_mem_nil, false_iff, not_and]
      intro _ hall
      rcases hall t (List.mem_cons_self t ts) with ⟨p, hp, _⟩
      rw [h] at hp
      exact List.not_mem_nil p hp
    · rw [if_neg h, mem_matchingDocs inv ts _ d, List.mem_filter]
      constructor
      · rintro ⟨⟨hms, hany⟩, hall⟩
        refine ⟨hms, fun u hu => ?_⟩
        rcases List.mem_cons.1 hu with rfl | hu
        · rcases List.any_eq_true.1 hany with ⟨p, hp, hpd⟩
          exact ⟨p, hp, by simpa using hpd⟩
        · exact hall u hu
      · rintro ⟨hms, hall⟩
        refine ⟨⟨hms, ?_⟩, fun u hu => hall u (List.mem_cons_of_mem t hu)⟩
        rcases hall t (List.mem_cons_self t ts) with ⟨p, hp, hpd⟩
        exact List.any_eq_true.2 ⟨p, hp, by simpa using hpd⟩

lemma find?_eq_head?_filter {α : Type} (p : α → Bool) :
    ∀ (l : List α), l.find? p = (l.filter p).head?
  | [] => rfl
  | x :: l => by
    by_cases h : p x = true
    · rw [List.find?_cons_of_pos _ h, List.filter_cons_of_pos h, List.head?_cons]
    · rw [List.find?_cons_of_neg _ h, List.filter_cons_of_neg h, find?_eq_head?_filter p l]

lemma tfIn_create (corpus : Corpus) (t : String) (d : ℕ) :
    tfIn (create_inverted_index corpus).1 t d = (streamAt corpus d).count t := by
  rw [tfIn, find?_eq_head?_filter, lookup_filter_create]
  by_cases hm : t ∈ streamAt corpus d
  · rw [if_pos hm]
    simp [occFrom_length_count]
  · rw [if_neg hm]
    simp [List.count_eq_zero.2 hm]

lemma mem_map_pair {α : Type} (g : ℕ → α) (ms : List ℕ) (d : ℕ) (s : α) :
    ((d, s) ∈ ms.map (fun x => (x, g x)) ↔ d ∈ ms ∧ s = g d) := by
  constructor
  · intro h
    rcases List.mem_map.1 h with ⟨x, hx, hxe⟩
    rcases Prod.mk.injEq _ _ _ _ ▸ hxe with ⟨h1, h2⟩
    exact ⟨h1 ▸ hx, h2.symm.trans (congrArg g h1)⟩
  · rintro ⟨hd, rfl⟩
    exact List.mem_map.2 ⟨d, hd, rfl⟩

lemma cosineSim_zero_of_norm_zero (v1 v2 : List ℝ) (h : sqNorm v1 = 0 ∨ sqNorm v2 = 0) :
    cosineSim v1 v2 = 0 := by
  rw [cosineSim, if_neg]
  rintro ⟨h1, h2⟩
  rcases h with h | h
  · exact h1 h
  · exact h2 h

lemma mem_matching_create_iff (query : String) (corpus : Corpus) (d : ℕ) :
    (d ∈ matchingDocs (create_inverted_index corpus).1 (tokenizeQuery query)
        (((create_inverted_index corpus).2.1).map (fun e => e.1)) ↔
      (d < corpus.length ∧ ∀ t ∈ tokenizeQuery query, t ∈ streamAt corpus d)) := by
  rw [mem_matchingDocs, dmap_keys_range, List.mem_range]
  constructor
  · rintro ⟨hd, hall⟩
    exact ⟨hd, fun t ht => (exists_posting_iff corpus t d).1 (hall t ht)⟩
  · rintro ⟨hd, hall⟩
    exact ⟨hd, fun t ht => (exists_posting_iff corpus t d).2 (hall t ht)⟩

/-- Claim C3: for a non-empty tokenized query, on the built index and doc id
map, whenever the cosine strategy returns a result list (it can instead
raise, modelled `none`), the list holds only documents containing every
query term; if some query term has no posting, or no document contains all
query terms, the result is the empty list; every returned score is the
cosine similarity of the idf-weighted query vector and the tf*idf document
vector; and a zero norm on either side makes the cosine 0. -/
theorem rank_query_tf_idf_cosine_correct (query : String) (corpus : Corpus)
    (r : List (ℕ × ℝ))
    (_hq : tokenizeQuery query ≠ [])
    (hr : rank_query_tf_idf_cosine query (create_inverted_index corpus).1 corpus
        (create_inverted_index corpus).2.1 = some r) :
    (∀ (d : ℕ) (s : ℝ), (d, s) ∈ r → ∀ t ∈ tokenizeQuery query, t ∈ streamAt corpus d)
    ∧ ((∃ t ∈ tokenizeQuery query,
          indexLookup (create_inverted_index corpus).1 t = []) → r = [])
    ∧ ((¬ ∃ d : ℕ, d < corpus.length ∧ ∀ t ∈ tokenizeQuery query, t ∈ streamAt corpus d) →
        r = [])
    ∧ (∀ (d : ℕ) (s : ℝ), (d, s) ∈ r →
        s = cosineSim ((tokenizeQuery query).map (fun t => idfSpec corpus t))
          ((tokenizeQuery query).map
            (fun t => ((streamAt corpus d).count t : ℝ) * idfSpec corpus t)))
    ∧ (∀ v1 v2 : List ℝ, sqNorm v1 = 0 ∨ sqNorm v2 = 0 → cosineSim v1 v2 = 0) := by
  simp only [rank_query_tf_idf_cosine] at hr
  cases hdl : doc_lengths corpus (create_inverted_index corpus).2.1 with
  | none =>
    rw [hdl] at hr
    exact absurd hr (by simp)
  | some dl =>
    rw [hdl] at hr
    simp only [] at hr
    by_cases hmm : matchingDocs (create_inverted_index corpus).1 (tokenizeQuery query)
        (((create_inverted_index corpus).2.1).map (fun e => e.1)) = []
    · rw [if_pos hmm] at hr
      have hre : r = [] := (Option.some.inj hr).symm
      subst hre
      exact ⟨by simp, fun _ => rfl, fun _ => rfl, by simp, cosineSim_zero_of_norm_zero⟩
    · rw [if_neg hmm] at hr
      have hre : r = sortByScoreDesc ((matchingDocs (create_inverted_index corpus).1
          (tokenizeQuery query) (((create_inverted_index corpus).2.1).map (fun e => e.1))).map
            (fun d => (d, cosineSim
              ((tokenizeQuery query).map (fun t =>
                idf ((create_inverted_index corpus).2.1).length (create_inverted_index corpus).1 t))
              ((tokenizeQuery query).map (fun t =>
                ((tfIn (create_inverted_index corpus).1 t d : ℝ) *
                  idf ((create_inverted_index corpus).2.1).length
                    (create_inverted_index corpus).1 t)))))) :=
        (Option.some.inj hr).symm
      have hmem : ∀ (d : ℕ) (s : ℝ), (d, s) ∈ r →
          (d < corpus.length ∧ ∀ t ∈ tokenizeQuery query, t ∈ streamAt corpus d) ∧
            s = cosineSim
              ((tokenizeQuery query).map (fun t =>
                idf ((create_inverted_index corpus).2.1).length (create_inverted_index corpus).1 t))
              ((tokenizeQuery query).map (fun t =>
                ((tfIn (create_inverted_index corpus).1 t d : ℝ) *
                  idf ((create_inverted_index corpus).2.1).length
                    (create_inverted_index corpus).1 t))) := by
        intro d s hds
        rw [hre, (sortByScoreDesc_perm _).mem_iff, mem_map_pair] at hds
        exact ⟨(mem_matching_create_iff query corpus d).1 hds.1, hds.2⟩
      refine ⟨?_, ?_, ?_, ?_, cosineSim_zero_of_norm_zero⟩
      · intro d s hds
        exact ((hmem d s hds).1).2
      · rintro ⟨t, ht, hempty⟩
        rcases List.exists_mem_of_ne_nil _ hmm with ⟨d0, hd0⟩
        rcases (mem_matchingDocs _ _ _ d0).1 hd0 with ⟨_, hall⟩
        rcases hall t ht with ⟨p, hp, _⟩
        rw [hempty] at hp
        exact absurd hp (List.not_mem_nil p)
      · intro hno
        rcases List.exists_mem_of_ne_nil _ hmm with ⟨d0, hd0⟩
        exact absurd ⟨d0, (mem_matching_create_iff query corpus d0).1 hd0⟩ hno
      · intro d s hds
        have hs := (hmem d s hds).2
        rw [dmap_create] at hs
        simpa only [idf_create, tfIn_create] using hs

/-- Claim C3 instantiated: the empty corpus and query "a" (the result is the
empty list because "a" has no posting). -/
theorem rank_query_tf_idf_cosine_correct_witness :
    (tokenizeQuery "a" ≠ [])
    ∧ (rank_query_tf_idf_cosine "a" (create_inverted_index ([] : Corpus)).1 ([] : Corpus)
        (create_inverted_index ([] : Corpus)).2.1 = some [])
    ∧ ((∀ (d : ℕ) (s : ℝ), (d, s) ∈ ([] : List (ℕ × ℝ)) →
          ∀ t ∈ tokenizeQuery "a", t ∈ streamAt ([] : Corpus) d)
      ∧ ((∃ t ∈ tokenizeQuery "a",
            indexLookup (create_inverted_index ([] : Corpus)).1 t = []) →
          ([] : List (ℕ × ℝ)) = [])
      ∧ ((¬ ∃ d : ℕ, d < ([] : Corpus).length ∧
            ∀ t ∈ tokenizeQuery "a", t ∈ streamAt ([] : Corpus) d) →
          ([] : List (ℕ × ℝ)) = [])
      ∧ (∀ (d : ℕ) (s : ℝ), (d, s) ∈ ([] : List (ℕ × ℝ)) →
          s = cosineSim ((tokenizeQuery "a").map (fun t => idfSpec ([] : Corpus) t))
            ((tokenizeQuery "a").map
              (fun t => ((streamAt ([] : Corpus) d).count t : ℝ) * idfSpec ([] : Corpus) t)))
      ∧ (∀ v1 v2 : List ℝ, sqNorm v1 = 0 ∨ sqNorm v2 = 0 → cosineSim v1 v2 = 0)) :=
  ⟨by decide, rfl,
    rank_query_tf_idf_cosine_correct "a" ([] : Corpus) [] (by decide) rfl⟩

/-- The sample document with one extra occurrence of "red" at the front of
its title tokens. -/
def sampleDoc2 : Document :=
  ⟨"p1", "red shoes", "very red shoes", 10, 0, 4, "http://x", .toks ["red", "red", "shoes"],
    .toks ["very", "red", "shoes"]⟩

/-- Claim C9 instantiated: the sample corpus, query "red", document 0 gaining
one occurrence of "red". -/
theorem rank_tfidf_monotone_witness :
    (sampleCorpus[0]? = some ("p1", sampleDoc))
    ∧ ("red" ∈ tokenizeQuery "red")
    ∧ ("red" ∈ sampleDoc.allTokens)
    ∧ (sampleDoc.allTokens = [] ++ ["red", "shoes", "very", "red", "shoes"])
    ∧ (sampleDoc2.allTokens = [] ++ "red" :: ["red", "shoes", "very", "red", "shoes"])
    ∧ scoreOf (rank_query_tf_idf "red" (create_inverted_index sampleCorpus).1 sampleCorpus
          (create_inverted_index sampleCorpus).2.1) 0 ≤
        scoreOf (rank_query_tf_idf "red"
            (create_inverted_index (sampleCorpus.set 0 ("p1", sampleDoc2))).1
            (sampleCorpus.set 0 ("p1", sampleDoc2))
            (create_inverted_index (sampleCorpus.set 0 ("p1", sampleDoc2))).2.1) 0 :=
  ⟨by decide, by decide, by decide, by decide, by decide,
    rank_tfidf_monotone "red" sampleCorpus 0 "p1" sampleDoc sampleDoc2 "red" []
      ["red", "shoes", "very", "red", "shoes"] (by decide) (by decide) (by decide)
      (by decide) (by decide)⟩

/-! ### BM25 -/

/-- BM25 idf: `ln((N - df + 0.5) / (df + 0.5) + 1)` when `df > 0`, else 0. -/
noncomputable def idfBM25 (N : ℕ) (inv : Index) (t : String) : ℝ :=
  if 0 < df inv t then
    Real.log (((N : ℝ) - (df inv t : ℝ) + 0.5) / ((df inv t : ℝ) + 0.5) + 1)
  else 0

/-- `avg_len = sum(doc_lengths.values()) / N if N > 0 else 1.0`. -/
noncomputable def avgLen (dl : List (ℕ × ℕ)) (N : ℕ) : ℝ :=
  if 0 < N then (dl.map (fun e => (e.2 : ℝ))).sum / (N : ℝ) else 1

/-- The per-posting loop of one BM25 term: accumulate
`idf[t] * (num / den)` with `num = tf * (k1 + 1)` and
`den = tf + k1 * (1 - b + b * (L / avg_len))`, where `L = doc_lengths[doc_id]`
(a `KeyError` is `none`). -/
noncomputable def bm25Inner (dl : List (ℕ × ℕ)) (idft avg k1 b : ℝ) :
    List Posting → List (ℕ × ℝ) → Option (List (ℕ × ℝ))
  | [], sc => some sc
  | p :: ps, sc =>
    match dlGet dl p.1 with
    | none => none
    | some L =>
      bm25Inner dl idft avg k1 b ps
        (addScore sc p.1
          (idft * (((p.2.length : ℝ) * (k1 + 1)) /
            ((p.2.length : ℝ) + k1 * (1 - b + b * ((L : ℝ) / avg))))))

/-- The per-term loop of BM25: running intersection of posting doc sets, a
break to the empty set on a term without postings, and score accumulation
over every posting of every processed term. -/
noncomputable def bm25Loop (inv : Index) (dl : List (ℕ × ℕ)) (N : ℕ) (avg k1 b : ℝ) :
    List String → List (ℕ × ℝ) → List ℕ → Option (List (ℕ × ℝ) × List ℕ)
  | [], sc, ms => some (sc, ms)
  | t :: ts, sc, ms =>
    if indexLookup inv t = [] then some (sc, [])
    else
      match bm25Inner dl (idfBM25 N inv t) avg k1 b (indexLookup inv t) sc with
      | none => none
      | some sc2 =>
        bm25Loop inv dl N avg k1 b ts sc2
          (ms.filter (fun d => (indexLookup inv t).any (fun p => p.1 = d)))

/-- `rank_query_bm25(query, inverted_index, corpus, doc_id_map, k1, b)`
(defaults `k1 = 1.5`, `b = 0.75` at the call site): doc lengths first (can
raise, giving `none`), then the per-term loop, then only the documents of the
final intersection are ranked, with their accumulated scores. -/
noncomputable def rank_query_bm25 (query : String) (inv : Index) (corpus : Corpus)
    (dmap : List (ℕ × String)) (k1 b : ℝ) : Option (List (ℕ × ℝ)) :=
  match doc_lengths corpus dmap with
  | none => none
  | some dl =>
    let N := dmap.length
    let qts := tokenizeQuery query
    match bm25Loop inv dl N (avgLen dl N) k1 b qts [] (dmap.map (fun e => e.1)) with
    | none => none
    | some scms =>
      some (sortByScoreDesc (scms.2.map (fun d => (d, (scoresGet scms.1 d).getD 0))))

/-- BM25 idf described on the corpus. -/
noncomputable def idfBM25Spec (corpus : Corpus) (t : String) : ℝ :=
  if 0 < dfSpec corpus t then
    Real.log (((corpus.length : ℝ) - (dfSpec corpus t : ℝ) + 0.5) /
      ((dfSpec corpus t : ℝ) + 0.5) + 1)
  else 0

/-- Mean token-stream length over the corpus (`1` for the empty corpus). -/
noncomputable def avgdlSpec (corpus : Corpus) : ℝ :=
  if 0 < corpus.length then
    (corpus.map (fun e => (e.2.allTokens.length : ℝ))).sum / (corpus.length : ℝ)
  else 1

/-- The BM25 score of document `d`: the sum over query terms (with
multiplicity) of `idf(t) * (tf*(k1+1)) / (tf + k1*(1 - b + b*L(d)/avgdl))`. -/
noncomputable def bm25ScoreSpec (corpus : Corpus) (qts : List String) (k1 b : ℝ) (d : ℕ) : ℝ :=
  (qts.map (fun t =>
    idfBM25Spec corpus t *
      ((((streamAt corpus d).count t : ℝ) * (k1 + 1)) /
        (((streamAt corpus d).count t : ℝ) +
          k1 * (1 - b + b * (((streamAt corpus d).length : ℝ) / avgdlSpec corpus)))))).sum

lemma idfBM25_create (corpus : Corpus) (t : String) :
    idfBM25 (dmapSpec corpus 0).length (create_inverted_index corpus).1 t =
      idfBM25Spec corpus t := by
  rw [idfBM25, idfBM25Spec, df_create, dmapSpec_length]

lemma corpusGet_of_mem :
    ∀ (corpus : Corpus), ((corpus.map (fun x => x.1)).Nodup) →
      ∀ e ∈ corpus, corpusGet corpus e.1 = some e.2
  | [], _, e, he => absurd he (List.not_mem_nil e)
  | f :: rest, hnd, e, he => by
    have hnd2 := hnd
    simp only [List.map_cons, List.nodup_cons] at hnd2
    rw [corpusGet]
    by_cases hf : f.1 = e.1
    · rcases List.mem_cons.1 he with rfl | he2
      · rw [if_pos rfl]
      · have hmem : e.1 ∈ rest.map (fun x => x.1) := List.mem_map_of_mem (fun x => x.1) he2
        rw [← hf] at hmem
        exact absurd hmem hnd2.1
    · rw [if_neg hf]
      rcases List.mem_cons.1 he with rfl | he2
      · exact absurd rfl hf
      · exact corpusGet_of_mem rest hnd2.2 e he2

lemma lenTokens_eq_allTokens (d : Document) (toks : List String) (h : d.lenTokens = some toks) :
    d.allTokens = toks := by
  rw [Document.lenTokens] at h
  rw [Document.allTokens]
  cases h1 : d.title_tokens.getattrD with
  | none =>
    rw [h1] at h
    exact Option.noConfusion h
  | some a =>
    cases h2 : d.desc_tokens.getattrD with
    | none =>
      rw [h1, h2] at h
      exact Option.noConfusion h
    | some b2 =>
      rw [h1, h2] at h
      exact Option.some.inj h

lemma doc_lengths_char (corpus : Corpus) (hnd : ((corpus.map (fun x => x.1)).Nodup)) :
    ∀ (dmap : List (ℕ × String)) (dl : List (ℕ × ℕ)),
    doc_lengths corpus dmap = some dl →
    (∀ e ∈ dmap, ∃ ce, corpus[e.1]? = some ce ∧ e.2 = ce.1) →
    dl = dmap.map (fun e => (e.1, (streamAt corpus e.1).length))
  | [], dl, h, _ => by
    rw [doc_lengths] at h
    rw [← Option.some.inj h]
    rfl
  | e :: rest, dl, h, hgood => by
    rw [doc_lengths] at h
    rcases hgood e (List.mem_cons_self e rest) with ⟨ce, hce, hpid⟩
    have hmem : ce ∈ corpus := by
      obtain ⟨hlt, hg⟩ := List.getElem?_eq_some.1 hce
      rw [← hg]
      exact List.getElem_mem hlt
    have hcg : corpusGet corpus e.2 = some ce.2 := by
      rw [hpid]
      exact corpusGet_of_mem corpus hnd ce hmem
    rw [hcg] at h
    simp only [] at h
    cases htk : ce.2.lenTokens with
    | none =>
      rw [htk] at h
      exact absurd h (by simp)
    | some toks =>
      rw [htk] at h
      simp only [] at h
      cases hrest : doc_lengths corpus rest with
      | none =>
        rw [hrest] at h
        exact absurd h (by simp)
      | some dl2 =>
        rw [hrest] at h
        have ih := doc_lengths_char corpus hnd rest dl2 hrest
          (fun e2 he2 => hgood e2 (List.mem_cons_of_mem e he2))
        have hstream : streamAt corpus e.1 = toks := by
          have hs : streamAt corpus e.1 = ce.2.allTokens :=
            streamAt_eq_of_getElem? corpus e.1 ce hce
          rw [hs]
          exact lenTokens_eq_allTokens _ toks htk
        rw [← Option.some.inj h, List.map_cons, ← ih, hstream]

lemma dmapSpec_good (corpus : Corpus) :
    ∀ e ∈ dmapSpec corpus 0, ∃ ce, corpus[e.1]? = some ce ∧ e.2 = ce.1 := by
  intro e he
  rcases List.mem_iff_getElem?.1 he with ⟨j, hj⟩
  rw [dmapSpec_getElem?] at hj
  rcases Option.map_eq_some'.1 hj with ⟨ce, hce, hval⟩
  have he2 : e = (j, ce.1) := by
    rw [← hval, Nat.zero_add]
  subst he2
  exact ⟨ce, hce, rfl⟩

lemma dlGet_dmapSpec_map (g : ℕ → ℕ) :
    ∀ (corpus : Corpus) (k d : ℕ), k ≤ d → d - k < corpus.length →
    dlGet ((dmapSpec corpus k).map (fun e => (e.1, g e.1))) d = some (g d)
  | [], _, _, _, hd => absurd hd (by simp)
  | e :: rest, k, d, hk, hd => by
    rw [dmapSpec, List.map_cons, dlGet]
    by_cases hkd : k = d
    · rw [if_pos hkd, hkd]
    · rw [if_neg hkd]
      refine dlGet_dmapSpec_map g rest (k + 1) d (by omega) ?_
      rw [List.length_cons] at hd
      omega

lemma dmapSpec_map_key (g : ℕ → ℝ) :
    ∀ (corpus : Corpus) (k : ℕ),
    ((dmapSpec corpus k).map (fun e => g e.1)) = (List.range' k corpus.length).map g
  | [], _ => rfl
  | e :: rest, k => by
    rw [dmapSpec, List.map_cons, List.length_cons, List.range'_succ, List.map_cons,
      dmapSpec_map_key g rest (k + 1)]

lemma range_map_stream (corpus : Corpus) :
    (List.range corpus.length).map (fun i => ((streamAt corpus i).length : ℝ)) =
      corpus.map (fun e => (e.2.allTokens.length : ℝ)) := by
  refine List.ext_getElem (by simp) ?_
  intro n h1 h2
  have hn : n < corpus.length := by simpa using h2
  simp only [List.getElem_map, List.getElem_range]
  rw [streamAt_eq_of_getElem? corpus n corpus[n] (List.getElem?_eq_getElem hn)]

lemma avgLen_create (corpus : Corpus) (dl : List (ℕ × ℕ))
    (hnd : ((corpus.map (fun x => x.1)).Nodup))
    (h : doc_lengths corpus (dmapSpec corpus 0) = some dl) :
    avgLen dl (dmapSpec corpus 0).length = avgdlSpec corpus := by
  rw [doc_lengths_char corpus hnd (dmapSpec corpus 0) dl h (dmapSpec_good corpus),
    dmapSpec_length, avgLen, avgdlSpec]
  by_cases hN : 0 < corpus.length
  · rw [if_pos hN, if_pos hN]
    congr 1
    have hmm2 : ((dmapSpec corpus 0).map (fun e => (e.1, (streamAt corpus e.1).length))).map
        (fun e => (e.2 : ℝ)) =
        (dmapSpec corpus 0).map (fun e => ((streamAt corpus e.1).length : ℝ)) := by
      rw [List.map_map]
      rfl
    rw [hmm2, dmapSpec_map_key (fun i => ((streamAt corpus i).length : ℝ)) corpus 0,
      ← List.range_eq_range', range_map_stream]
  · rw [if_neg hN, if_neg hN]

lemma dlGet_create (corpus : Corpus) (dl : List (ℕ × ℕ))
    (hnd : ((corpus.map (fun x => x.1)).Nodup))
    (h : doc_lengths corpus (dmapSpec corpus 0) = some dl)
    (d : ℕ) (hd : d < corpus.length) :
    dlGet dl d = some ((streamAt corpus d).length) := by
  rw [doc_lengths_char corpus hnd _ dl h (dmapSpec_good corpus)]
  exact dlGet_dmapSpec_map (fun i => (streamAt corpus i).length) corpus 0 d (Nat.zero_le d)
    (by simpa using hd)

lemma bm25Inner_some (dl : List (ℕ × ℕ)) (idft avg k1 b : ℝ) :
    ∀ (ps : List Posting) (sc sc2 : List (ℕ × ℝ)),
    bm25Inner dl idft avg k1 b ps sc = some sc2 →
    ∀ d : ℕ, (scoresGet sc2 d).getD 0 = (scoresGet sc d).getD 0 +
      ((ps.filter (fun p => p.1 = d)).map (fun p =>
        idft * (((p.2.length : ℝ) * (k1 + 1)) /
          ((p.2.length : ℝ) +
            k1 * (1 - b + b * (((dlGet dl p.1).getD 0 : ℝ) / avg)))))).sum
  | [], sc, sc2, h, d => by
    rw [bm25Inner] at h
    rw [← Option.some.inj h]
    simp
  | p :: ps, sc, sc2, h, d => by
    rw [bm25Inner] at h
    cases hL : dlGet dl p.1 with
    | none =>
      rw [hL] at h
      exact absurd h (by simp)
    | some L =>
      rw [hL] at h
      simp only [] at h
      have ih := bm25Inner_some dl idft avg k1 b ps _ sc2 h d
      rw [ih, scoresGet_addScore, List.filter_cons]
      by_cases hp : p.1 = d
      · have hL2 : dlGet dl d = some L := by rw [← hp]; exact hL
        simp [hp, hL2, add_assoc]
      · simp [hp, Ne.symm hp]

lemma bm25Loop_mem_some (inv : Index) (dl : List (ℕ × ℕ)) (N : ℕ) (avg k1 b : ℝ) :
    ∀ (ts : List String) (sc : List (ℕ × ℝ)) (ms : List ℕ) (scms : List (ℕ × ℝ) × List ℕ),
    bm25Loop inv dl N avg k1 b ts sc ms = some scms →
    ∀ d ∈ scms.2,
      (d ∈ ms ∧ (∀ t ∈ ts, ∃ p ∈ indexLookup inv t, p.1 = d)
        ∧ (scoresGet scms.1 d).getD 0 = (scoresGet sc d).getD 0 +
          (ts.map (fun t => (((indexLookup inv t).filter (fun p => p.1 = d)).map (fun p =>
            idfBM25 N inv t * (((p.2.length : ℝ) * (k1 + 1)) /
              ((p.2.length : ℝ) +
                k1 * (1 - b + b * (((dlGet dl p.1).getD 0 : ℝ) / avg)))))).sum)).sum)
  | [], sc, ms, scms, h, d, hd => by
    rw [bm25Loop] at h
    rw [← Option.some.inj h] at hd ⊢
    exact ⟨hd, by simp, by simp⟩
  | t :: ts, sc, ms, scms, h, d, hd => by
    rw [bm25Loop] at h
    by_cases hemp : indexLookup inv t = []
    · rw [if_pos hemp] at h
      rw [← Option.some.inj h] at hd
      exact absurd hd (List.not_mem_nil d)
    · rw [if_neg hemp] at h
      cases hin : bm25Inner dl (idfBM25 N inv t) avg k1 b (indexLookup inv t) sc with
      | none =>
        rw [hin] at h
        exact absurd h (by simp)
      | some sc1 =>
        rw [hin] at h
        simp only [] at h
        have ih := bm25Loop_mem_some inv dl N avg k1 b ts sc1 _ scms h d hd
        rcases ih with ⟨hdm, hall, hsc⟩
        rcases List.mem_filter.1 hdm with ⟨hdms, hany⟩
        refine ⟨hdms, ?_, ?_⟩
        · intro u hu
          rcases List.mem_cons.1 hu with rfl | hu
          · rcases List.any_eq_true.1 hany with ⟨p, hp, hpd⟩
            exact ⟨p, hp, by simpa using hpd⟩
          · exact hall u hu
        · rw [hsc, bm25Inner_some dl (idfBM25 N inv t) avg k1 b (indexLookup inv t) sc sc1 hin d,
            List.map_cons, List.sum_cons, add_assoc]

lemma bm25Loop_empty_of_absent (inv : Index) (dl : List (ℕ × ℕ)) (N : ℕ) (avg k1 b : ℝ) :
    ∀ (ts : List String) (sc : List (ℕ × ℝ)) (ms : List ℕ) (scms : List (ℕ × ℝ) × List ℕ),
    bm25Loop inv dl N avg k1 b ts sc ms = some scms →
    (∃ t ∈ ts, indexLookup inv t = []) → scms.2 = []
  | [], sc, ms, scms, h, habs => by
    rcases habs with ⟨t, ht, _⟩
    exact absurd ht (List.not_mem_nil t)
  | t :: ts, sc, ms, scms, h, habs => by
    rw [bm25Loop] at h
    by_cases hemp : indexLookup inv t = []
    · rw [if_pos hemp] at h
      rw [← Option.some.inj h]
    · rw [if_neg hemp] at h
      cases hin : bm25Inner dl (idfBM25 N inv t) avg k1 b (indexLookup inv t) sc with
      | none =>
        rw [hin] at h
        exact absurd h (by simp)
      | some sc1 =>
        rw [hin] at h
        simp only [] at h
        rcases habs with ⟨u, hu, huemp⟩
        rcases List.mem_cons.1 hu with rfl | hu
        · exact absurd huemp hemp
        · exact bm25Loop_empty_of_absent inv dl N avg k1 b ts sc1 _ scms h ⟨u, hu, huemp⟩

/-- Claim C4: for a non-empty tokenized query and a corpus with distinct
pids, on the built index and doc id map, whenever BM25 returns a result list
it holds only documents containing every query term; if some query term has
no posting the result is empty; and every returned score is the BM25 sum
over query terms of `idf(t) * (tf*(k1+1)) / (tf + k1*(1 - b + b*L/avgdl))`. -/
theorem rank_query_bm25_correct (query : String) (corpus : Corpus) (k1 b : ℝ)
    (r : List (ℕ × ℝ))
    (hnd : ((corpus.map (fun x => x.1)).Nodup))
    (_hq : tokenizeQuery query ≠ [])
    (hr : rank_query_bm25 query (create_inverted_index corpus).1 corpus
        (create_inverted_index corpus).2.1 k1 b = some r) :
    (∀ (d : ℕ) (s : ℝ), (d, s) ∈ r →
        d < corpus.length ∧ ∀ t ∈ tokenizeQuery query, t ∈ streamAt corpus d)
    ∧ ((∃ t ∈ tokenizeQuery query,
          indexLookup (create_inverted_index corpus).1 t = []) → r = [])
    ∧ (∀ (d : ℕ) (s : ℝ), (d, s) ∈ r →
        s = bm25ScoreSpec corpus (tokenizeQuery query) k1 b d) := by
  simp only [rank_query_bm25] at hr
  rw [dmap_create] at hr
  cases hdl : doc_lengths corpus (dmapSpec corpus 0) with
  | none =>
    rw [hdl] at hr
    exact absurd hr (by simp)
  | some dl =>
    rw [hdl] at hr
    simp only [] at hr
    cases hloop : bm25Loop (create_inverted_index corpus).1 dl (dmapSpec corpus 0).length
        (avgLen dl (dmapSpec corpus 0).length) k1 b (tokenizeQuery query) []
        ((dmapSpec corpus 0).map (fun e => e.1)) with
    | none =>
      rw [hloop] at hr
      exact absurd hr (by simp)
    | some scms =>
      rw [hloop] at hr
      simp only [] at hr
      have hre : r = sortByScoreDesc (scms.2.map
          (fun d => (d, (scoresGet scms.1 d).getD 0))) := (Option.some.inj hr).symm
      have hkeys : ((dmapSpec corpus 0).map (fun e => e.1)) = List.range corpus.length := by
        rw [dmapSpec_map_fst, List.range_eq_range']
      have hmem : ∀ (d : ℕ) (s : ℝ), (d, s) ∈ r →
          d ∈ scms.2 ∧ s = (scoresGet scms.1 d).getD 0 := by
        intro d s hds
        rw [hre, (sortByScoreDesc_perm _).mem_iff, mem_map_pair] at hds
        exact hds
      have hchar := bm25Loop_mem_some (create_inverted_index corpus).1 dl
        (dmapSpec corpus 0).length (avgLen dl (dmapSpec corpus 0).length) k1 b
        (tokenizeQuery query) [] ((dmapSpec corpus 0).map (fun e => e.1)) scms hloop
      refine ⟨?_, ?_, ?_⟩
      · intro d s hds
        rcases hchar d (hmem d s hds).1 with ⟨hdms, hall, _⟩
        have hdlt : d < corpus.length := by
          rw [hkeys] at hdms
          exact List.mem_range.1 hdms
        exact ⟨hdlt, fun t ht => (exists_posting_iff corpus t d).1 (hall t ht)⟩
      · intro habs
        have h2 := bm25Loop_empty_of_absent (create_inverted_index corpus).1 dl
          (dmapSpec corpus 0).length (avgLen dl (dmapSpec corpus 0).length) k1 b
          (tokenizeQuery query) [] ((dmapSpec corpus 0).map (fun e => e.1)) scms hloop habs
        rw [hre, h2]
        rfl
      · intro d s hds
        rcases hchar d (hmem d s hds).1 with ⟨hdms, hall, hsc⟩
        have hdlt : d < corpus.length := by
          rw [hkeys] at hdms
          exact List.mem_range.1 hdms
        rw [(hmem d s hds).2, hsc, bm25ScoreSpec]
        have hzero : (scoresGet ([] : List (ℕ × ℝ)) d).getD 0 = 0 := rfl
        rw [hzero, zero_add]
        refine congrArg List.sum (List.map_congr_left ?_)
        intro t _
        rw [lookup_filter_create]
        by_cases hm : t ∈ streamAt corpus d
        · rw [if_pos hm]
          simp only [List.map_cons, List.map_nil, List.sum_cons, List.sum_nil, add_zero]
          rw [occFrom_length_count, idfBM25_create,
            dlGet_create corpus dl hnd hdl d hdlt,
            avgLen_create corpus dl hnd hdl]
          rfl
        · rw [if_neg hm]
          rw [List.count_eq_zero.2 hm]
          simp

/-- Claim C4 instantiated: the empty corpus, query "a", the default
constants `k1 = 1.5` and `b = 0.75` (the result is the empty list because
"a" has no posting). -/
theorem rank_query_bm25_correct_witness :
    ((([] : Corpus).map (fun x => x.1)).Nodup)
    ∧ (tokenizeQuery "a" ≠ [])
    ∧ (rank_query_bm25 "a" (create_inverted_index ([] : Corpus)).1 ([] : Corpus)
        (create_inverted_index ([] : Corpus)).2.1 1.5 0.75 = some [])
    ∧ ((∀ (d : ℕ) (s : ℝ), (d, s) ∈ ([] : List (ℕ × ℝ)) →
          d < ([] : Corpus).length ∧ ∀ t ∈ tokenizeQuery "a", t ∈ streamAt ([] : Corpus) d)
      ∧ ((∃ t ∈ tokenizeQuery "a",
            indexLookup (create_inverted_index ([] : Corpus)).1 t = []) →
          ([] : List (ℕ × ℝ)) = [])
      ∧ (∀ (d : ℕ) (s : ℝ), (d, s) ∈ ([] : List (ℕ × ℝ)) →
          s = bm25ScoreSpec ([] : Corpus) (tokenizeQuery "a") 1.5 0.75 d)) :=
  ⟨by decide, by decide, rfl,
    rank_query_bm25_correct "a" ([] : Corpus) 1.5 0.75 [] (by decide) (by decide) rfl⟩

/-! ### The search facade `search_in_corpus` -/

/-- A materialized search result record (the dict built per hit). -/
structure ResultRecord where
  pid : String
  title : String
  description : String
  selling_price : ℚ
  discount : ℚ
  average_rating : ℚ
  url : String
  score : ℝ

/-- The materialization loop: `pid = doc_id_map[doc_id]; d = corpus[pid]`
(a `KeyError` is `none`) and the display record with the float score. -/
noncomputable def materialize (corpus : Corpus) (dmap : List (ℕ × String)) :
    List (ℕ × ℝ) → Option (List ResultRecord)
  | [] => some []
  | e :: rest =>
    match dmapLookup dmap e.1 with
    | none => none
    | some pid =>
      match corpusGet corpus pid with
      | none => none
      | some doc =>
        match materialize corpus dmap rest with
        | none => none
        | some rs =>
          some (⟨pid, doc.title, doc.description, doc.selling_price, doc.discount,
            doc.average_rating, doc.url, e.2⟩ :: rs)

/-- The strategy dispatch of `search_in_corpus`: "tfidf", "tfidf_cos" and
"bm25" (with the default constants `k1 = 1.5`, `b = 0.75`); any other name
yields the empty ranking. -/
noncomputable def selectRanked (query algo : String) (corpus : Corpus) (inv : Index)
    (dmap : List (ℕ × String)) : Option (List (ℕ × ℝ)) :=
  if algo = "tfidf" then some (rank_query_tf_idf query inv corpus dmap)
  else if algo = "tfidf_cos" then rank_query_tf_idf_cosine query inv corpus dmap
  else if algo = "bm25" then rank_query_bm25 query inv corpus dmap 1.5 0.75
  else some []

/-- `search_in_corpus(query, algo, corpus, inverted_index, doc_id_map, top_k)`:
`if not query or query.strip() == ""` (both cases are exactly: every
character is whitespace) return `[]`; otherwise dispatch, truncate the
ranking to `top_k` and materialize. -/
noncomputable def search_in_corpus (query algo : String) (corpus : Corpus) (inv : Index)
    (dmap : List (ℕ × String)) (top_k : ℕ) : Option (List ResultRecord) :=
  if query.data.all Char.isWhitespace then some []
  else
    match selectRanked query algo corpus inv dmap with
    | none => none
    | some ranked => materialize corpus dmap (ranked.take top_k)

/-- Claim C7: a strategy name outside the recognized set {"tfidf",
"tfidf_cos", "bm25"} makes `search_in_corpus` return the empty result list,
with no error. -/
theorem search_unknown_algo (query algo : String) (corpus : Corpus) (top_k : ℕ)
    (h : algo ∉ (["tfidf", "tfidf_cos", "bm25"] : List String)) :
    search_in_corpus query algo corpus (create_inverted_index corpus).1
      (create_inverted_index corpus).2.1 top_k = some [] := by
  rw [search_in_corpus]
  by_cases hw : query.data.all Char.isWhitespace
  · rw [if_pos hw]
  · rw [if_neg hw, selectRanked]
    simp only [List.mem_cons, List.not_mem_nil, or_false, not_or] at h
    rw [if_neg h.1, if_neg h.2.1, if_neg h.2.2]
    simp [materialize]

/-- Claim C7 instantiated: query "a", the empty corpus and the strategy name
"xyz". -/
theorem search_unknown_algo_witness :
    ("xyz" ∉ (["tfidf", "tfidf_cos", "bm25"] : List String))
    ∧ search_in_corpus "a" "xyz" ([] : Corpus) (create_inverted_index ([] : Corpus)).1
        (create_inverted_index ([] : Corpus)).2.1 20 = some [] :=
  ⟨by decide, search_unknown_algo "a" "xyz" ([] : Corpus) 20 (by decide)⟩

lemma materialize_some (corpus : Corpus) (dmap : List (ℕ × String)) :
    ∀ (l : List (ℕ × ℝ)) (res : List ResultRecord),
    materialize corpus dmap l = some res →
    res.length = l.length ∧ res.map (fun rec => rec.score) = l.map (fun e => e.2)
  | [], res, h => by
    rw [materialize] at h
    rw [← Option.some.inj h]
    exact ⟨rfl, rfl⟩
  | e :: rest, res, h => by
    rw [materialize] at h
    cases h1 : dmapLookup dmap e.1 with
    | none =>
      rw [h1] at h
      exact absurd h (by simp)
    | some pid =>
      rw [h1] at h
      simp only [] at h
      cases h2 : corpusGet corpus pid with
      | none =>
        rw [h2] at h
        exact absurd h (by simp)
      | some doc =>
        rw [h2] at h
        simp only [] at h
        cases h3 : materialize corpus dmap rest with
        | none =>
          rw [h3] at h
          exact absurd h (by simp)
        | some rs =>
          rw [h3] at h
          have ih := materialize_some corpus dmap rest rs h3
          rw [← Option.some.inj h]
          simp [ih.1, ih.2]

lemma rank_cosine_sorted (query : String) (inv : Index) (corpus : Corpus)
    (dmap : List (ℕ × String)) (r : List (ℕ × ℝ))
    (h : rank_query_tf_idf_cosine query inv corpus dmap = some r) :
    List.Pairwise (fun a b => b.2 ≤ a.2) r := by
  simp only [rank_query_tf_idf_cosine] at h
  cases hdl : doc_lengths corpus dmap with
  | none =>
    rw [hdl] at h
    exact absurd h (by simp)
  | some dl =>
    rw [hdl] at h
    simp only [] at h
    by_cases hm : matchingDocs inv (tokenizeQuery query) (dmap.map (fun e => e.1)) = []
    · rw [if_pos hm] at h
      rw [← Option.some.inj h]
      simp
    · rw [if_neg hm] at h
      rw [← Option.some.inj h]
      exact sortByScoreDesc_sorted _

lemma rank_bm25_sorted (query : String) (inv : Index) (corpus : Corpus)
    (dmap : List (ℕ × String)) (k1 b : ℝ) (r : List (ℕ × ℝ))
    (h : rank_query_bm25 query inv corpus dmap k1 b = some r) :
    List.Pairwise (fun a b => b.2 ≤ a.2) r := by
  simp only [rank_query_bm25] at h
  cases hdl : doc_lengths corpus dmap with
  | none =>
    rw [hdl] at h
    exact absurd h (by simp)
  | some dl =>
    rw [hdl] at h
    simp only [] at h
    cases hloop : bm25Loop inv dl dmap.length (avgLen dl dmap.length) k1 b
        (tokenizeQuery query) [] (dmap.map (fun e => e.1)) with
    | none =>
      rw [hloop] at h
      exact absurd h (by simp)
    | some scms =>
      rw [hloop] at h
      simp only [] at h
      rw [← Option.some.inj h]
      exact sortByScoreDesc_sorted _

lemma selectRanked_sorted (query algo : String) (corpus : Corpus) (inv : Index)
    (dmap : List (ℕ × String)) (ranked : List (ℕ × ℝ))
    (h : selectRanked query algo corpus inv dmap = some ranked) :
    List.Pairwise (fun a b => b.2 ≤ a.2) ranked := by
  rw [selectRanked] at h
  by_cases h1 : algo = "tfidf"
  · rw [if_pos h1] at h
    rw [← Option.some.inj h, rank_query_tf_idf]
    exact sortByScoreDesc_sorted _
  · rw [if_neg h1] at h
    by_cases h2 : algo = "tfidf_cos"
    · rw [if_pos h2] at h
      exact rank_cosine_sorted query inv corpus dmap ranked h
    · rw [if_neg h2] at h
      by_cases h3 : algo = "bm25"
      · rw [if_pos h3] at h
        exact rank_bm25_sorted query inv corpus dmap 1.5 0.75 ranked h
      · rw [if_neg h3] at h
        rw [← Option.some.inj h]
        simp

/-- Claim C6: whenever `search_in_corpus` returns, it returns at most
`top_k` records, in score-descending order; when the query guard passes,
the returned scores are exactly those of the first `top_k` entries of the
selected strategy's score-descending ranking, and every dropped candidate
scores no more than every returned record. -/
theorem search_top_k (query algo : String) (corpus : Corpus) (top_k : ℕ)
    (res : List ResultRecord)
    (h : search_in_corpus query algo corpus (create_inverted_index corpus).1
        (create_inverted_index corpus).2.1 top_k = some res) :
    res.length ≤ top_k
    ∧ List.Pairwise (fun a b => b.score ≤ a.score) res
    ∧ (query.data.all Char.isWhitespace = true → res = [])
    ∧ (query.data.all Char.isWhitespace = false →
        ∃ ranked, selectRanked query algo corpus (create_inverted_index corpus).1
            (create_inverted_index corpus).2.1 = some ranked
          ∧ List.Pairwise (fun a b => b.2 ≤ a.2) ranked
          ∧ res.map (fun rec => rec.score) = (ranked.take top_k).map (fun e => e.2)
          ∧ ∀ c ∈ ranked.drop top_k, ∀ rec ∈ res, c.2 ≤ rec.score) := by
  rw [search_in_corpus] at h
  by_cases hw : query.data.all Char.isWhitespace
  · rw [if_pos hw] at h
    have hre : res = [] := (Option.some.inj h).symm
    subst hre
    exact ⟨Nat.zero_le top_k, List.Pairwise.nil, fun _ => rfl,
      fun hfalse => absurd hw (by rw [hfalse]; exact Bool.false_ne_true)⟩
  · rw [if_neg hw] at h
    cases hsel : selectRanked query algo corpus (create_inverted_index corpus).1
        (create_inverted_index corpus).2.1 with
    | none =>
      rw [hsel] at h
      exact absurd h (by simp)
    | some ranked =>
      rw [hsel] at h
      simp only [] at h
      have hmat := materialize_some corpus (create_inverted_index corpus).2.1
        (ranked.take top_k) res h
      have hsorted := selectRanked_sorted query algo corpus
        (create_inverted_index corpus).1 (create_inverted_index corpus).2.1 ranked hsel
      have htake : List.Pairwise (fun a b => b.2 ≤ a.2) (ranked.take top_k) :=
        hsorted.sublist (List.take_sublist top_k ranked)
      have hcross : ∀ a ∈ ranked.take top_k, ∀ c ∈ ranked.drop top_k, c.2 ≤ a.2 := by
        have hsp : List.Pairwise (fun a b => b.2 ≤ a.2)
            (ranked.take top_k ++ ranked.drop top_k) := by
          rw [List.take_append_drop]
          exact hsorted
        exact (List.pairwise_append.1 hsp).2.2
      refine ⟨?_, ?_, ?_, ?_⟩
      · rw [hmat.1, List.length_take]
        exact min_le_left _ _
      · have hp : List.Pairwise (fun a b => (b : ℝ) ≤ a) (res.map (fun rec => rec.score)) := by
          rw [hmat.2]
          exact (List.pairwise_map).2 htake
        exact (List.pairwise_map).1 hp
      · intro htrue
        exact absurd htrue hw
      · intro _
        refine ⟨ranked, rfl, hsorted, hmat.2, ?_⟩
        intro c hc rec hrec
        have hscore : rec.score ∈ (ranked.take top_k).map (fun e => e.2) := by
          rw [← hmat.2]
          exact List.mem_map_of_mem _ hrec
        rcases List.mem_map.1 hscore with ⟨a, ha, hae⟩
        rw [← hae]
        exact hcross a ha c hc

/-- Claim C6 instantiated: query "a", strategy "tfidf", the empty corpus,
top_k 20. -/
theorem search_top_k_witness :
    (search_in_corpus "a" "tfidf" ([] : Corpus) (create_inverted_index ([] : Corpus)).1
        (create_inverted_index ([] : Corpus)).2.1 20 = some [])
    ∧ (([] : List ResultRecord).length ≤ 20
      ∧ List.Pairwise (fun a b => b.score ≤ a.score) ([] : List ResultRecord)
      ∧ ("a".data.all Char.isWhitespace = true → ([] : List ResultRecord) = [])
      ∧ ("a".data.all Char.isWhitespace = false →
          ∃ ranked, selectRanked "a" "tfidf" ([] : Corpus)
              (create_inverted_index ([] : Corpus)).1
              (create_inverted_index ([] : Corpus)).2.1 = some ranked
            ∧ List.Pairwise (fun a b => b.2 ≤ a.2) ranked
            ∧ ([] : List ResultRecord).map (fun rec => rec.score) =
                (ranked.take 20).map (fun e => e.2)
            ∧ ∀ c ∈ ranked.drop 20, ∀ rec ∈ ([] : List ResultRecord), c.2 ≤ rec.score)) :=
  ⟨rfl, search_top_k "a" "tfidf" ([] : Corpus) 20 [] rfl⟩

/-! ### Totality on well-formed corpora (claims C5 and C8) -/

/-- A corpus is well formed when no token attribute holds `None` (a missing
attribute is fine: `getattr` defaults it). The data model of the spec carries
token sequences, so this is the domain of the no-runtime-error contract. -/
def wellFormed (corpus : Corpus) : Prop :=
  ∀ e ∈ corpus, e.2.title_tokens ≠ TokAttr.null ∧ e.2.desc_tokens ≠ TokAttr.null

instance (corpus : Corpus) : Decidable (wellFormed corpus) :=
  inferInstanceAs (Decidable (∀ e ∈ corpus, _ ∧ _))

lemma getattrD_isSome (a : TokAttr) (h : a ≠ TokAttr.null) : ∃ l, a.getattrD = some l := by
  cases a with
  | missing => exact ⟨[], rfl⟩
  | null => exact absurd rfl h
  | toks l => exact ⟨l, rfl⟩

lemma lenTokens_isSome_of_wf (d : Document) (h1 : d.title_tokens ≠ TokAttr.null)
    (h2 : d.desc_tokens ≠ TokAttr.null) : ∃ toks, d.lenTokens = some toks := by
  rcases getattrD_isSome d.title_tokens h1 with ⟨a, ha⟩
  rcases getattrD_isSome d.desc_tokens h2 with ⟨b2, hb⟩
  refine ⟨a ++ b2, ?_⟩
  rw [Document.lenTokens, ha, hb]

lemma corpusGet_isSome :
    ∀ (corpus : Corpus) (pid : String), pid ∈ corpus.map (fun x => x.1) →
      ∃ doc, corpusGet corpus pid = some doc
  | [], pid, h => absurd h (by simp)
  | f :: rest, pid, h => by
    rw [corpusGet]
    by_cases hf : f.1 = pid
    · exact ⟨f.2, by rw [if_pos hf]⟩
    · have h2 : pid = f.1 ∨ pid ∈ rest.map (fun x => x.1) := by
        rw [List.map_cons] at h
        exact List.mem_cons.1 h
      rcases h2 with hh | hh
      · exact absurd hh.symm hf
      · rw [if_neg hf]
        exact corpusGet_isSome rest pid hh

lemma corpusGet_mem :
    ∀ (corpus : Corpus) (pid : String) (doc : Document),
      corpusGet corpus pid = some doc → (pid, doc) ∈ corpus
  | [], _, _, h => absurd h (by simp [corpusGet])
  | f :: rest, pid, doc, h => by
    rw [corpusGet] at h
    by_cases hf : f.1 = pid
    · rw [if_pos hf] at h
      have : f = (pid, doc) := by
        rw [← hf, ← Option.some.inj h]
      rw [← this]
      exact List.mem_cons_self f rest
    · rw [if_neg hf] at h
      exact List.mem_cons_of_mem f (corpusGet_mem rest pid doc h)

lemma doc_lengths_isSome (corpus : Corpus) (hwf : wellFormed corpus) :
    ∀ (dmap : List (ℕ × String)), (∀ e ∈ dmap, e.2 ∈ corpus.map (fun x => x.1)) →
      ∃ dl, doc_lengths corpus dmap = some dl
  | [], _ => ⟨[], rfl⟩
  | e :: rest, hall => by
    rcases corpusGet_isSome corpus e.2 (hall e (List.mem_cons_self e rest)) with ⟨doc, hdoc⟩
    have hm := corpusGet_mem corpus e.2 doc hdoc
    rcases hwf _ hm with ⟨h1, h2⟩
    rcases lenTokens_isSome_of_wf doc h1 h2 with ⟨toks, htoks⟩
    rcases doc_lengths_isSome corpus hwf rest
      (fun x hx => hall x (List.mem_cons_of_mem e hx)) with ⟨dl, hdl⟩
    refine ⟨(e.1, toks.length) :: dl, ?_⟩
    rw [doc_lengths, hdoc]
    simp only []
    rw [htoks]
    simp only []
    rw [hdl]

lemma dmapSpec_pids (corpus : Corpus) :
    ∀ e ∈ dmapSpec corpus 0, e.2 ∈ corpus.map (fun x => x.1) := by
  intro e he
  rcases dmapSpec_good corpus e he with ⟨ce, hce, hpid⟩
  rw [hpid]
  obtain ⟨hlt, hg⟩ := List.getElem?_eq_some.1 hce
  rw [← hg]
  exact List.mem_map_of_mem _ (List.getElem_mem hlt)

lemma doc_lengths_keys (corpus : Corpus) :
    ∀ (dmap : List (ℕ × String)) (dl : List (ℕ × ℕ)),
    doc_lengths corpus dmap = some dl →
    dl.map (fun e => e.1) = dmap.map (fun e => e.1)
  | [], dl, h => by
    rw [doc_lengths] at h
    rw [← Option.some.inj h]
    rfl
  | e :: rest, dl, h => by
    rw [doc_lengths] at h
    cases h1 : corpusGet corpus e.2 with
    | none =>
      rw [h1] at h
      exact absurd h (by simp)
    | some doc =>
      rw [h1] at h
      simp only [] at h
      cases h2 : doc.lenTokens with
      | none =>
        rw [h2] at h
        exact absurd h (by simp)
      | some toks =>
        rw [h2] at h
        simp only [] at h
        cases h3 : doc_lengths corpus rest with
        | none =>
          rw [h3] at h
          exact absurd h (by simp)
        | some dl2 =>
          rw [h3] at h
          rw [← Option.some.inj h, List.map_cons, List.map_cons,
            doc_lengths_keys corpus rest dl2 h3]

lemma dlGet_isSome :
    ∀ (dl : List (ℕ × ℕ)) (d : ℕ), d ∈ dl.map (fun e => e.1) → ∃ L, dlGet dl d = some L
  | [], _, h => absurd h (by simp)
  | e :: rest, d, h => by
    rw [dlGet]
    by_cases he : e.1 = d
    · exact ⟨e.2, by rw [if_pos he]⟩
    · have h2 : d = e.1 ∨ d ∈ rest.map (fun e => e.1) := by
        rw [List.map_cons] at h
        exact List.mem_cons.1 h
      rcases h2 with hh | hh
      · exact absurd hh.symm he
      · rw [if_neg he]
        exact dlGet_isSome rest d hh

lemma bm25Inner_isSome (dl : List (ℕ × ℕ)) (idft avg k1 b : ℝ) :
    ∀ (ps : List Posting) (sc : List (ℕ × ℝ)),
    (∀ p ∈ ps, ∃ L, dlGet dl p.1 = some L) →
      ∃ sc2, bm25Inner dl idft avg k1 b ps sc = some sc2
  | [], sc, _ => ⟨sc, rfl⟩
  | p :: ps, sc, hall => by
    rcases hall p (List.mem_cons_self p ps) with ⟨L, hL⟩
    rcases bm25Inner_isSome dl idft avg k1 b ps
      (addScore sc p.1
        (idft * (((p.2.length : ℝ) * (k1 + 1)) /
          ((p.2.length : ℝ) + k1 * (1 - b + b * ((L : ℝ) / avg))))))
      (fun x hx => hall x (List.mem_cons_of_mem p hx)) with ⟨sc2, h2⟩
    refine ⟨sc2, ?_⟩
    rw [bm25Inner, hL]
    exact h2

lemma bm25Loop_isSome (inv : Index) (dl : List (ℕ × ℕ)) (N : ℕ) (avg k1 b : ℝ) :
    ∀ (ts : List String) (sc : List (ℕ × ℝ)) (ms : List ℕ),
    (∀ t ∈ ts, ∀ p ∈ indexLookup inv t, ∃ L, dlGet dl p.1 = some L) →
      ∃ scms, bm25Loop inv dl N avg k1 b ts sc ms = some scms
  | [], sc, ms, _ => ⟨(sc, ms), rfl⟩
  | t :: ts, sc, ms, hall => by
    rw [bm25Loop]
    by_cases hemp : indexLookup inv t = []
    · exact ⟨(sc, []), by rw [if_pos hemp]⟩
    · rcases bm25Inner_isSome dl (idfBM25 N inv t) avg k1 b (indexLookup inv t) sc
        (hall t (List.mem_cons_self t ts)) with ⟨sc1, h1⟩
      rcases bm25Loop_isSome inv dl N avg k1 b ts sc1
        (ms.filter (fun d => (indexLookup inv t).any (fun p => p.1 = d)))
        (fun u hu => hall u (List.mem_cons_of_mem t hu)) with ⟨scms, h2⟩
      refine ⟨scms, ?_⟩
      rw [if_neg hemp, h1]
      exact h2

lemma rank_cosine_isSome (query : String) (corpus : Corpus) (hwf : wellFormed corpus) :
    ∃ r, rank_query_tf_idf_cosine query (create_inverted_index corpus).1 corpus
      (create_inverted_index corpus).2.1 = some r := by
  rcases doc_lengths_isSome corpus hwf (dmapSpec corpus 0) (dmapSpec_pids corpus) with ⟨dl, hdl⟩
  simp only [rank_query_tf_idf_cosine]
  rw [dmap_create, hdl]
  simp only []
  by_cases hm : matchingDocs (create_inverted_index corpus).1 (tokenizeQuery query)
      ((dmapSpec corpus 0).map (fun e => e.1)) = []
  · exact ⟨[], by rw [if_pos hm]⟩
  · exact ⟨_, by rw [if_neg hm]⟩

lemma rank_bm25_isSome (query : String) (corpus : Corpus) (k1 b : ℝ)
    (hwf : wellFormed corpus) :
    ∃ r, rank_query_bm25 query (create_inverted_index corpus).1 corpus
      (create_inverted_index corpus).2.1 k1 b = some r := by
  rcases doc_lengths_isSome corpus hwf (dmapSpec corpus 0) (dmapSpec_pids corpus) with ⟨dl, hdl⟩
  have hcov : ∀ t ∈ tokenizeQuery query,
      ∀ p ∈ indexLookup (create_inverted_index corpus).1 t, ∃ L, dlGet dl p.1 = some L := by
    intro t _ p hp
    refine dlGet_isSome dl p.1 ?_
    rw [doc_lengths_keys corpus (dmapSpec corpus 0) dl hdl, dmapSpec_map_fst,
      ← List.range_eq_range', List.mem_range]
    rw [indexLookup_create] at hp
    have := (postingsFrom_bound t corpus 0 p hp).2
    omega
  rcases bm25Loop_isSome (create_inverted_index corpus).1 dl (dmapSpec corpus 0).length
    (avgLen dl (dmapSpec corpus 0).length) k1 b (tokenizeQuery query) []
    ((dmapSpec corpus 0).map (fun e => e.1)) hcov with ⟨scms, hloop⟩
  refine ⟨sortByScoreDesc (scms.2.map (fun d => (d, (scoresGet scms.1 d).getD 0))), ?_⟩
  simp only [rank_query_bm25]
  rw [dmap_create, hdl]
  simp only []
  rw [hloop]

lemma lt_of_mem_streamAt (corpus : Corpus) (d : ℕ) (t : String) (h : t ∈ streamAt corpus d) :
    d < corpus.length := by
  by_contra hge
  rw [streamAt, List.getElem?_eq_none (by omega)] at h
  exact absurd h (by simp)

lemma rank_tfidf_ids (query : String) (corpus : Corpus) :
    ∀ e ∈ rank_query_tf_idf query (create_inverted_index corpus).1 corpus
      (create_inverted_index corpus).2.1, e.1 < corpus.length := by
  intro e he
  have hm := (rank_tfidf_mem_iff query corpus e.1 e.2).1 he
  rcases hm.1 with ⟨t, _, hts⟩
  exact lt_of_mem_streamAt corpus e.1 t hts

lemma rank_cosine_ids (query : String) (corpus : Corpus) (r : List (ℕ × ℝ))
    (h : rank_query_tf_idf_cosine query (create_inverted_index corpus).1 corpus
      (create_inverted_index corpus).2.1 = some r) :
    ∀ e ∈ r, e.1 < corpus.length := by
  simp only [rank_query_tf_idf_cosine] at h
  cases hdl : doc_lengths corpus (create_inverted_index corpus).2.1 with
  | none =>
    rw [hdl] at h
    exact absurd h (by simp)
  | some dl =>
    rw [hdl] at h
    simp only [] at h
    by_cases hmm : matchingDocs (create_inverted_index corpus).1 (tokenizeQuery query)
        (((create_inverted_index corpus).2.1).map (fun e => e.1)) = []
    · rw [if_pos hmm] at h
      rw [← Option.some.inj h]
      intro e he
      exact absurd he (List.not_mem_nil e)
    · rw [if_neg hmm] at h
      rw [← Option.some.inj h]
      intro e he
      rw [(sortByScoreDesc_perm _).mem_iff] at he
      rcases List.mem_map.1 he with ⟨d0, hd0, he2⟩
      rw [← he2]
      exact ((mem_matching_create_iff query corpus d0).1 hd0).1

lemma rank_bm25_ids (query : String) (corpus : Corpus) (k1 b : ℝ) (r : List (ℕ × ℝ))
    (h : rank_query_bm25 query (create_inverted_index corpus).1 corpus
      (create_inverted_index corpus).2.1 k1 b = some r) :
    ∀ e ∈ r, e.1 < corpus.length := by
  simp only [rank_query_bm25] at h
  rw [dmap_create] at h
  cases hdl : doc_lengths corpus (dmapSpec corpus 0) with
  | none =>
    rw [hdl] at h
    exact absurd h (by simp)
  | some dl =>
    rw [hdl] at h
    simp only [] at h
    cases hloop : bm25Loop (create_inverted_index corpus).1 dl (dmapSpec corpus 0).length
        (avgLen dl (dmapSpec corpus 0).length) k1 b (tokenizeQuery query) []
        ((dmapSpec corpus 0).map (fun e => e.1)) with
    | none =>
      rw [hloop] at h
      exact absurd h (by simp)
    | some scms =>
      rw [hloop] at h
      simp only [] at h
      rw [← Option.some.inj h]
      intro e he
      rw [(sortByScoreDesc_perm _).mem_iff] at he
      rcases List.mem_map.1 he with ⟨d0, hd0, he2⟩
      have hch := bm25Loop_mem_some (create_inverted_index corpus).1 dl
        (dmapSpec corpus 0).length (avgLen dl (dmapSpec corpus 0).length) k1 b
        (tokenizeQuery query) [] ((dmapSpec corpus 0).map (fun e => e.1)) scms hloop d0 hd0
      have hin := hch.1
      rw [dmapSpec_map_fst, ← List.range_eq_range', List.mem_range] at hin
      rw [← he2]
      exact hin

lemma dmapLookup_dmapSpec :
    ∀ (corpus : Corpus) (k d : ℕ), k ≤ d → d - k < corpus.length →
    ∃ pid, dmapLookup (dmapSpec corpus k) d = some pid ∧ pid ∈ corpus.map (fun x => x.1)
  | [], _, _, _, hd => absurd hd (by simp)
  | e :: rest, k, d, hk, hd => by
    rw [dmapSpec, dmapLookup]
    by_cases hkd : k = d
    · exact ⟨e.1, by rw [if_pos hkd], List.mem_map_of_mem _ (List.mem_cons_self e rest)⟩
    · rw [if_neg hkd]
      have hd2 : d - (k + 1) < rest.length := by
        rw [List.length_cons] at hd
        omega
      rcases dmapLookup_dmapSpec rest (k + 1) d (by omega) hd2 with ⟨pid, h1, h2⟩
      refine ⟨pid, h1, ?_⟩
      rw [List.map_cons]
      exact List.mem_cons_of_mem _ h2

lemma materialize_isSome (corpus : Corpus) :
    ∀ (l : List (ℕ × ℝ)), (∀ e ∈ l, e.1 < corpus.length) →
      ∃ res, materialize corpus (dmapSpec corpus 0) l = some res
  | [], _ => ⟨[], rfl⟩
  | e :: rest, hall => by
    have he1 : e.1 - 0 < corpus.length := by
      have := hall e (List.mem_cons_self e rest)
      omega
    rcases dmapLookup_dmapSpec corpus 0 e.1 (Nat.zero_le e.1) he1 with ⟨pid, h1, h2⟩
    rcases corpusGet_isSome corpus pid h2 with ⟨doc, h3⟩
    rcases materialize_isSome corpus rest
      (fun x hx => hall x (List.mem_cons_of_mem e hx)) with ⟨res, h4⟩
    refine ⟨⟨pid, doc.title, doc.description, doc.selling_price, doc.discount,
      doc.average_rating, doc.url, e.2⟩ :: res, ?_⟩
    rw [materialize, h1]
    simp only []
    rw [h3]
    simp only []
    rw [h4]

lemma search_isSome (query algo : String) (corpus : Corpus) (top_k : ℕ)
    (hwf : wellFormed corpus) :
    ∃ res, search_in_corpus query algo corpus (create_inverted_index corpus).1
      (create_inverted_index corpus).2.1 top_k = some res := by
  rw [search_in_corpus]
  by_cases hw : query.data.all Char.isWhitespace
  · exact ⟨[], by rw [if_pos hw]⟩
  · rw [if_neg hw]
    have hsel : ∃ ranked, selectRanked query algo corpus (create_inverted_index corpus).1
        (create_inverted_index corpus).2.1 = some ranked
        ∧ ∀ e ∈ ranked, e.1 < corpus.length := by
      rw [selectRanked]
      by_cases h1 : algo = "tfidf"
      · rw [if_pos h1]
        exact ⟨_, rfl, rank_tfidf_ids query corpus⟩
      · rw [if_neg h1]
        by_cases h2 : algo = "tfidf_cos"
        · rw [if_pos h2]
          rcases rank_cosine_isSome query corpus hwf with ⟨r, hr⟩
          exact ⟨r, hr, rank_cosine_ids query corpus r hr⟩
        · rw [if_neg h2]
          by_cases h3 : algo = "bm25"
          · rw [if_pos h3]
            rcases rank_bm25_isSome query corpus 1.5 0.75 hwf with ⟨r, hr⟩
            exact ⟨r, hr, rank_bm25_ids query corpus 1.5 0.75 r hr⟩
          · rw [if_neg h3]
            exact ⟨[], rfl, by simp⟩
    rcases hsel with ⟨ranked, hral, hids⟩
    rw [hral]
    simp only []
    have htake : ∀ e ∈ ranked.take top_k, e.1 < corpus.length :=
      fun e he => hids e (List.take_subset top_k ranked he)
    rcases materialize_isSome corpus (ranked.take top_k) htake with ⟨res, hres⟩
    refine ⟨res, ?_⟩
    rw [dmap_create]
    exact hres

lemma avgdlSpec_pos_of_posting (corpus : Corpus) (t : String)
    (h : indexLookup (create_inverted_index corpus).1 t ≠ []) : 0 < avgdlSpec corpus := by
  rcases List.exists_mem_of_ne_nil _ h with ⟨p, hp⟩
  have hm : t ∈ streamAt corpus p.1 := (exists_posting_iff corpus t p.1).1 ⟨p, hp, rfl⟩
  have hd : p.1 < corpus.length := lt_of_mem_streamAt corpus p.1 t hm
  have hN : 0 < corpus.length := by omega
  rw [avgdlSpec, if_pos hN]
  refine div_pos ?_ (by exact_mod_cast hN)
  have hnonneg : ∀ x ∈ corpus.map (fun e => (e.2.allTokens.length : ℝ)), 0 ≤ x := by
    intro x hx
    rcases List.mem_map.1 hx with ⟨e, _, rfl⟩
    positivity
  have hel : ((streamAt corpus p.1).length : ℝ) ∈
      corpus.map (fun e => (e.2.allTokens.length : ℝ)) := by
    have hs : streamAt corpus p.1 = corpus[p.1].2.allTokens :=
      streamAt_eq_of_getElem? corpus p.1 corpus[p.1] (List.getElem?_eq_getElem hd)
    rw [hs]
    exact List.mem_map_of_mem _ (List.getElem_mem hd)
  have hge := List.single_le_sum hnonneg _ hel
  have hpos : (0 : ℝ) < ((streamAt corpus p.1).length : ℝ) := by
    have h0 : 0 < (streamAt corpus p.1).length :=
      List.length_pos.2 (List.ne_nil_of_mem hm)
    exact_mod_cast h0
  linarith

/-- Claim C5 (amended to well-formed corpora, whose token attributes are
token sequences or missing, never None — the shape the data model of the
spec gives a Document): the division guards hold — zero document frequency
gives idf 0 in both idf variants, a zero vector norm gives cosine 0, an
empty corpus gives avgdl 1 — the cosine and BM25 strategies and the facade
return a value for every query string, strategy name and top_k (TF-IDF is
total by construction), and the `L / avg_len` division of BM25 is only
reached when some posting exists, in which case the average document length
is positive. -/
theorem no_runtime_error (query algo : String) (corpus : Corpus) (top_k : ℕ)
    (hwf : wellFormed corpus) :
    (∀ (N : ℕ) (inv : Index) (t : String), df inv t = 0 → idf N inv t = 0)
    ∧ (∀ (N : ℕ) (inv : Index) (t : String), df inv t = 0 → idfBM25 N inv t = 0)
    ∧ (∀ v1 v2 : List ℝ, sqNorm v1 = 0 ∨ sqNorm v2 = 0 → cosineSim v1 v2 = 0)
    ∧ (∀ dl : List (ℕ × ℕ), avgLen dl 0 = 1)
    ∧ (∃ r, rank_query_tf_idf_cosine query (create_inverted_index corpus).1 corpus
        (create_inverted_index corpus).2.1 = some r)
    ∧ (∀ k1 b : ℝ, ∃ r, rank_query_bm25 query (create_inverted_index corpus).1 corpus
        (create_inverted_index corpus).2.1 k1 b = some r)
    ∧ (∃ res, search_in_corpus query algo corpus (create_inverted_index corpus).1
        (create_inverted_index corpus).2.1 top_k = some res)
    ∧ (∀ t : String, indexLookup (create_inverted_index corpus).1 t ≠ [] →
        0 < avgdlSpec corpus) := by
  refine ⟨?_, ?_, cosineSim_zero_of_norm_zero, fun dl => rfl,
    rank_cosine_isSome query corpus hwf, fun k1 b => rank_bm25_isSome query corpus k1 b hwf,
    search_isSome query algo corpus top_k hwf, fun t => avgdlSpec_pos_of_posting corpus t⟩
  · intro N inv t h
    rw [idf, if_neg (by omega)]
  · intro N inv t h
    rw [idfBM25, if_neg (by omega)]

/-- A document whose desc_tokens attribute holds Python None. -/
def nullDoc : Document :=
  ⟨"p1", "red shoes", "very red shoes", 10, 0, 4, "http://x", .toks ["red", "shoes"],
    TokAttr.null⟩

/-- A one-document corpus with a null token field. -/
def nullCorpus : Corpus := [("p1", nullDoc)]

/-- Counterexample to claim C5 as stated: on a corpus whose document carries
a None token field, the facade with the cosine strategy raises a TypeError
computing the document lengths (modelled: returns `none`), instead of
returning a result. -/
theorem search_null_corpus_raises :
    search_in_corpus "red" "tfidf_cos" nullCorpus (create_inverted_index nullCorpus).1
      (create_inverted_index nullCorpus).2.1 20 = none := rfl

/-- Claim C5 instantiated: the sample corpus, query "red", strategy "tfidf",
top_k 20. -/
theorem no_runtime_error_witness :
    (wellFormed sampleCorpus)
    ∧ ((∀ (N : ℕ) (inv : Index) (t : String), df inv t = 0 → idf N inv t = 0)
      ∧ (∀ (N : ℕ) (inv : Index) (t : String), df inv t = 0 → idfBM25 N inv t = 0)
      ∧ (∀ v1 v2 : List ℝ, sqNorm v1 = 0 ∨ sqNorm v2 = 0 → cosineSim v1 v2 = 0)
      ∧ (∀ dl : List (ℕ × ℕ), avgLen dl 0 = 1)
      ∧ (∃ r, rank_query_tf_idf_cosine "red" (create_inverted_index sampleCorpus).1
          sampleCorpus (create_inverted_index sampleCorpus).2.1 = some r)
      ∧ (∀ k1 b : ℝ, ∃ r, rank_query_bm25 "red" (create_inverted_index sampleCorpus).1
          sampleCorpus (create_inverted_index sampleCorpus).2.1 k1 b = some r)
      ∧ (∃ res, search_in_corpus "red" "tfidf" sampleCorpus
          (create_inverted_index sampleCorpus).1
          (create_inverted_index sampleCorpus).2.1 20 = some res)
      ∧ (∀ t : String, indexLookup (create_inverted_index sampleCorpus).1 t ≠ [] →
          0 < avgdlSpec sampleCorpus)) :=
  ⟨by decide, no_runtime_error "red" "tfidf" sampleCorpus 20 (by decide)⟩

/-! ### Claim C8: missing and null token fields -/

lemma lenTokens_none_of_null (d : Document)
    (h : d.title_tokens = TokAttr.null ∨ d.desc_tokens = TokAttr.null) :
    d.lenTokens = none := by
  rw [Document.lenTokens]
  rcases h with h | h
  · rw [h]
    rfl
  · rw [h]
    cases h1 : d.title_tokens.getattrD <;> rfl

lemma doc_lengths_none_of_bad (corpus : Corpus) (doc : Document) :
    ∀ (dmap : List (ℕ × String)) (e : ℕ × String), e ∈ dmap →
    corpusGet corpus e.2 = some doc → doc.lenTokens = none →
    doc_lengths corpus dmap = none
  | [], e, he, _, _ => absurd he (List.not_mem_nil e)
  | f :: rest, e, he, hcg, hlen => by
    rw [doc_lengths]
    rcases List.mem_cons.1 he with rfl | he2
    · simp only [hcg, hlen]
    · cases h1 : corpusGet corpus f.2 with
      | none => simp only [h1]
      | some doc2 =>
        cases h2 : doc2.lenTokens with
        | none => simp only [h1, h2]
        | some toks =>
          simp only [h1, h2,
            doc_lengths_none_of_bad corpus doc rest e he2 hcg hlen]

/-- Counterexample to claim C8 as stated: the cosine and BM25 strategies do
not treat a null (None) token field as an empty sequence: on the null corpus
both raise a TypeError computing the document lengths (modelled: return
`none`). -/
theorem null_token_field_raises :
    rank_query_tf_idf_cosine "red" (create_inverted_index nullCorpus).1 nullCorpus
        (create_inverted_index nullCorpus).2.1 = none
    ∧ rank_query_bm25 "red" (create_inverted_index nullCorpus).1 nullCorpus
        (create_inverted_index nullCorpus).2.1 1.5 0.75 = none :=
  ⟨rfl, rfl⟩

/-- Claim C8 amended: a missing token attribute, and a null one, contribute
nothing to the token stream the index builder uses, so such a document gets
no postings from that field; a document whose whole stream is empty can
never match any query; with missing (but no null) fields the cosine and BM25
strategies return normally (index construction and TF-IDF are total by
construction); but a null token field makes the cosine and BM25 strategies
raise a TypeError (modelled: return `none`). -/
theorem token_field_handling (query : String) (corpus : Corpus) (k1 b : ℝ) :
    (∀ d : Document,
        (d.title_tokens = TokAttr.missing ∨ d.title_tokens = TokAttr.null) →
        d.allTokens = orElseEmpty d.desc_tokens.getattrD)
    ∧ (∀ d : Document,
        (d.desc_tokens = TokAttr.missing ∨ d.desc_tokens = TokAttr.null) →
        d.allTokens = orElseEmpty d.title_tokens.getattrD)
    ∧ (∀ (i : ℕ) (e : String × Document), corpus[i]? = some e → e.2.allTokens = [] →
        ∀ t : String, ¬ ∃ p ∈ indexLookup (create_inverted_index corpus).1 t, p.1 = i)
    ∧ (wellFormed corpus →
        (∃ r, rank_query_tf_idf_cosine query (create_inverted_index corpus).1 corpus
          (create_inverted_index corpus).2.1 = some r)
        ∧ ∃ r, rank_query_bm25 query (create_inverted_index corpus).1 corpus
          (create_inverted_index corpus).2.1 k1 b = some r)
    ∧ (((corpus.map (fun x => x.1)).Nodup) →
        ∀ (i : ℕ) (e : String × Document), corpus[i]? = some e →
        (e.2.title_tokens = TokAttr.null ∨ e.2.desc_tokens = TokAttr.null) →
        rank_query_tf_idf_cosine query (create_inverted_index corpus).1 corpus
            (create_inverted_index corpus).2.1 = none
        ∧ rank_query_bm25 query (create_inverted_index corpus).1 corpus
            (create_inverted_index corpus).2.1 k1 b = none) := by
  refine ⟨?_, ?_, ?_, ?_, ?_⟩
  · intro d hd
    rw [Document.allTokens]
    rcases hd with hd | hd <;> rw [hd] <;> rfl
  · intro d hd
    rw [Document.allTokens]
    rcases hd with hd | hd <;> rw [hd] <;> simp [TokAttr.getattrD, orElseEmpty]
  · intro i e hi hempty t
    rintro ⟨p, hp, hpd⟩
    have hm : t ∈ streamAt corpus i := (exists_posting_iff corpus t i).1 ⟨p, hp, hpd⟩
    rw [streamAt_eq_of_getElem? corpus i e hi, hempty] at hm
    exact absurd hm (List.not_mem_nil t)
  · intro hwf
    exact ⟨rank_cosine_isSome query corpus hwf, rank_bm25_isSome query corpus k1 b hwf⟩
  · intro hnd i e hi hnull
    obtain ⟨hlt, hget⟩ := List.getElem?_eq_some.1 hi
    have hdm : ((i, e.1) : ℕ × String) ∈ dmapSpec corpus 0 := by
      refine List.mem_iff_getElem?.2 ⟨i, ?_⟩
      rw [dmapSpec_getElem?, hi, Option.map_some', Nat.zero_add]
    have hcg : corpusGet corpus e.1 = some e.2 := by
      refine corpusGet_of_mem corpus hnd e ?_
      rw [← hget]
      exact List.getElem_mem hlt
    have hlen := lenTokens_none_of_null e.2 hnull
    have hdln : doc_lengths corpus (dmapSpec corpus 0) = none :=
      doc_lengths_none_of_bad corpus e.2 (dmapSpec corpus 0) (i, e.1) hdm hcg hlen
    constructor
    · simp only [rank_query_tf_idf_cosine]
      rw [dmap_create, hdln]
    · simp only [rank_query_bm25]
      rw [dmap_create, hdln]

end IRWA
